import Mathlib

/-!
Verification of the NANOS ordered container (src/src/nanos.esm.js).

The development shallowly embeds the container data model and the
operations referenced by the specification: key classification
(isIndex / isNegIndex), the key-sequence engine inside set (append and
insert placement), delete, push, unshift, pop, shift, reverse, the
renumbering helper, the three lock dimensions, and the SLID
serializer and parser.

Modelling conventions:
- a JS key is a string; strings matching the isIndex regex
  (canonical non-negative decimal) are embedded as Key.idx n, every
  other string as Key.name s.  Strings of isNegIndex form appear only
  as arguments and are embedded as KeyArg.neg n.
- the JS number type is restricted to its integer fragment
  (Value.num : Int); non-integer numeric literals are carried
  symbolically by Value.real.  BigInt values are Value.big.
- the _keys array and the _storage object always hold the same key
  set in the source, so both are embedded as one association list
  entries : List (Key x Value) kept in _keys order.
- mutating methods return Except; the error case carries the state at
  throw time (the source throws TypeError before or after partial
  mutation, and the embedding reproduces the state at the throw).
- value-level locks (lock(), writable: false property descriptors)
  are the lockedVals field; assigning or deleting such a property in
  strict mode throws TypeError, embedded as Err.readOnly.
-/

namespace Nanos

/-- Key of a container entry: index keys (the strings matched by
isIndex, written canonically) versus named keys (all other strings). -/
inductive Key where
  | idx (n : Nat)
  | name (s : String)
deriving DecidableEq

/-- Argument-position keys additionally admit negative index strings
(isNegIndex): KeyArg.neg n embeds the string "-n" (n >= 1). -/
inductive KeyArg where
  | idx (n : Nat)
  | neg (n : Nat)
  | name (s : String)
deriving DecidableEq

mutual
/-- Values storable in a container: the JS scalars produced and
consumed by the code under verification, plus nested containers.
Value.real carries a non-integer numeric literal symbolically. -/
inductive Value where
  | undef
  | nul
  | bool (b : Bool)
  | num (n : Int)
  | big (n : Int)
  | str (s : String)
  | real (s : String)
  | list (c : NANOS)

/-- Container state: _next, the ordered entries (_keys plus _storage),
_locked (key-set lock), _lockInd (index lock), _lockNew
(lock-new-values mode) and the set of value-locked keys. -/
inductive NANOS where
  | mk (next : Nat) (entries : List (Key × Value))
       (locked : Bool) (lockInd : Bool) (lockNew : Bool)
       (lockedVals : List Key)
end

/-- Projection: the _next high-water mark. -/
def NANOS.next : NANOS → Nat
  | .mk n _ _ _ _ _ => n

/-- Projection: the ordered entry list. -/
def NANOS.entries : NANOS → List (Key × Value)
  | .mk _ es _ _ _ _ => es

/-- Projection: the key-set lock flag (_locked). -/
def NANOS.locked : NANOS → Bool
  | .mk _ _ l _ _ _ => l

/-- Projection: the index lock flag (_lockInd). -/
def NANOS.lockInd : NANOS → Bool
  | .mk _ _ _ li _ _ => li

/-- Projection: the lock-new-values flag (_lockNew). -/
def NANOS.lockNew : NANOS → Bool
  | .mk _ _ _ _ ln _ => ln

/-- Projection: the value-locked keys. -/
def NANOS.lockedVals : NANOS → List Key
  | .mk _ _ _ _ _ lv => lv

/-- State with replaced next and entries, all lock state kept. -/
def NANOS.withEN (c : NANOS) (n : Nat) (es : List (Key × Value)) : NANOS :=
  .mk n es c.locked c.lockInd c.lockNew c.lockedVals

/-- Empty container, as produced by the constructor with no items. -/
def NANOS.empty : NANOS := .mk 0 [] false false false []

/-- Key order of the container (the _keys array). -/
def NANOS.keys (c : NANOS) : List Key := c.entries.map Prod.fst

/-- Lookup in an association list (models Object.hasOwn plus property
read on _storage). -/
def assocLookup (k : Key) : List (Key × Value) → Option Value
  | [] => none
  | (k₁, v) :: t => if k₁ = k then some v else assocLookup k t

/-- Lookup of a stored value by key. -/
def NANOS.lookup (c : NANOS) (k : Key) : Option Value := assocLookup k c.entries

/-- Replacement of the value of a present key, order kept (models the
plain property assignment storage[skey] = value on a present key). -/
def assocReplace (k : Key) (v : Value) : List (Key × Value) → List (Key × Value)
  | [] => []
  | (k₁, v₁) :: t => if k₁ = k then (k₁, v) :: t else (k₁, v₁) :: assocReplace k v t

/-- Classification of a key as an index key (isIndex on its string form). -/
def Key.isIdx : Key → Bool
  | .idx _ => true
  | .name _ => false

/-- Embedding of a stored key back into argument position. -/
def Key.arg : Key → KeyArg
  | .idx n => .idx n
  | .name s => .name s

/-- Errors thrown by mutating methods: the TypeError thrown after a
key-set lock, the TypeError thrown after an index lock, and the
strict-mode TypeError on writing or deleting a read-only
(value-locked) property. -/
inductive Err where
  | locked (op : String)
  | lockedInd (op : String)
  | readOnly (k : Key)
deriving DecidableEq

/-- Result of a mutating method: either a value together with the new
state or an error together with the state at the time of the throw. -/
abbrev MRes (α : Type) := Except (Err × NANOS) (α × NANOS)

/-- Negative-index resolution (#wrapKey): "-n" resolves to next - n and
to no key at all when that is below zero. -/
def NANOS.wrapKey (c : NANOS) : KeyArg → Option Key
  | .idx n => some (.idx n)
  | .name s => some (.name s)
  | .neg n => if n ≤ c.next then some (.idx (c.next - n)) else none

/-- Single-key read (at / get, without the path form).  When #wrapKey
yields undefined, Object.hasOwn coerces it to the property name
"undefined", which the embedding reproduces. -/
def NANOS.at (c : NANOS) (k : KeyArg) : Option Value :=
  match c.wrapKey k with
  | some key => c.lookup key
  | none => c.lookup (.name "undefined")

/-- Append-mode scan condition of set: the scan from the left continues
past named keys and past index keys below the new index. -/
def skipAppend (ind : Nat) : Key → Bool
  | .idx m => decide (m < ind)
  | .name _ => true

/-- Insert-mode scan condition of set: the scan from the right
continues past named keys and past index keys above the new index. -/
def skipInsert (ind : Nat) : Key → Bool
  | .idx m => decide (ind < m)
  | .name _ => true

/-- Splice of a new index entry at the append-mode position: the while
loop of set advances ki past exactly the longest prefix satisfying
skipAppend, and splice(ki, 0, skey) is the take/drop split there. -/
def insertAppend (es : List (Key × Value)) (e : Key × Value) (ind : Nat) :
    List (Key × Value) :=
  es.takeWhile (fun p => skipAppend ind p.1) ++
    e :: es.dropWhile (fun p => skipAppend ind p.1)

/-- Splice of a new index entry at the insert-mode position: the while
loop of set moves ki down past exactly the longest suffix satisfying
skipInsert, and splice(ki, 0, skey) is the split before that suffix. -/
def insertInsert (es : List (Key × Value)) (e : Key × Value) (ind : Nat) :
    List (Key × Value) :=
  (es.reverse.dropWhile (fun p => skipInsert ind p.1)).reverse ++
    e :: (es.reverse.takeWhile (fun p => skipInsert ind p.1)).reverse

/-- Post-store hook of set: with _lockNew on, the freshly stored key is
value-locked (lock(skey)), which also sets _lockInd for index keys. -/
def NANOS.applyLockNew (c : NANOS) (k : Key) : NANOS :=
  if c.lockNew then
    .mk c.next c.entries c.locked (c.lockInd || k.isIdx) c.lockNew (k :: c.lockedVals)
  else c

/-- The set method.  Exact mirroring of the source order: key-set lock
check, undefined-key defaulting to _next, #wrapKey (negative
resolution, silently returning on underflow), then either in-place
update of a present key (throwing on a value-locked slot, as the
strict-mode assignment does) or placement of the new key by the
append/insert scan, followed by the _next high-water update. -/
def NANOS.set (c : NANOS) (key? : Option KeyArg) (v : Value) (insert : Bool) :
    MRes (Option Value) :=
  if c.locked then .error (.locked "set", c) else
  let ka := key?.getD (.idx c.next)
  match c.wrapKey ka with
  | none => .ok (none, c)
  | some key =>
    match c.lookup key with
    | some _ =>
      if key ∈ c.lockedVals then .error (.readOnly key, c)
      else
        .ok (some v, ((c.withEN c.next (assocReplace key v c.entries)).applyLockNew key))
    | none =>
      let es :=
        if insert then
          match key with
          | .name _ => (key, v) :: c.entries
          | .idx n => if c.next = 0 then (key, v) :: c.entries
                      else insertInsert c.entries (key, v) n
        else
          match key with
          | .name _ => c.entries ++ [(key, v)]
          | .idx n => if c.next ≤ n then c.entries ++ [(key, v)]
                      else insertAppend c.entries (key, v) n
      let nx :=
        match key with
        | .idx n => if c.next ≤ n then n + 1 else c.next
        | .name _ => c.next
      .ok (some v, ((c.withEN nx es).applyLockNew key))

/-- The delete method.  No #wrapKey is applied (the source stringifies
the key directly); deletion of a present value-locked key reproduces
the strict-mode TypeError of delete on a non-configurable property. -/
def NANOS.delete (c : NANOS) (k : Key) : MRes (Option Value) :=
  if c.locked then .error (.locked "delete", c) else
  match c.lookup k with
  | none => .ok (none, c)
  | some v =>
    if k ∈ c.lockedVals then .error (.readOnly k, c)
    else .ok (some v, c.withEN c.next (c.entries.filter (fun e => e.1 ≠ k)))

/-- The lockKeys method: sets the key-set lock. -/
def NANOS.lockKeys (c : NANOS) : NANOS :=
  .mk c.next c.entries true c.lockInd c.lockNew c.lockedVals

/-- The lock method for one present key: records the value lock and,
for an index key, the index lock.  Locking an absent key would in the
source create a storage-only stealth property; no claim exercises
that case and it is outside this embedding. -/
def NANOS.lock1 (c : NANOS) (k : KeyArg) : NANOS :=
  match c.wrapKey k with
  | none => c
  | some key =>
    .mk c.next c.entries c.locked (c.lockInd || key.isIdx) c.lockNew
      (key :: c.lockedVals)

/-- State with replaced next only. -/
def NANOS.withNext (c : NANOS) (n : Nat) : NANOS :=
  .mk n c.entries c.locked c.lockInd c.lockNew c.lockedVals

/-- The pop method: after the two lock checks, empty next yields
undefined, otherwise _next is first decremented and the slot _next-1
deleted (delete of an absent slot is a no-op returning undefined). -/
def NANOS.pop (c : NANOS) : MRes (Option Value) :=
  if c.locked then .error (.locked "pop", c)
  else if c.lockInd then .error (.lockedInd "pop", c)
  else if c.next = 0 then .ok (none, c)
  else (c.withNext (c.next - 1)).delete (.idx (c.next - 1))

/-- Index renumbering on the key side (#renumber): index keys in
[lo, hi) move by the signed amount; all other keys are untouched. -/
def renumKey (lo hi : Nat) (by_ : Int) : Key → Key
  | .idx n => if lo ≤ n ∧ n < hi then .idx ((n + by_).toNat) else .idx n
  | .name s => .name s

/-- The #renumber helper.  The source moves the stored slots in the
clobber-safe direction and then rewrites _keys; on the states the two
callers (shift and unshift) produce, the net effect is the
simultaneous remap embedded here.  The _next updates follow the
source: raised to hi + by for a positive move reaching past it,
lowered by the move when hi reaches _next for a negative move (the
toNat clamp is never reached from the two callers). -/
def NANOS.renumber (c : NANOS) (lo hi : Nat) (by_ : Int) : NANOS :=
  let nx :=
    if 0 < by_ then
      (if c.next < hi + by_.toNat then hi + by_.toNat else c.next)
    else if by_ < 0 then
      (if c.next ≤ hi then ((c.next : Int) + by_).toNat else c.next)
    else c.next
  let es :=
    if by_ = 0 then c.entries
    else c.entries.map (fun e => (renumKey lo hi by_ e.1, e.2))
  c.withEN nx es

/-- The shift method: lock checks, empty next yields undefined,
otherwise slot 0 is deleted and [1, _next) renumbered down by one. -/
def NANOS.shift (c : NANOS) : MRes (Option Value) :=
  if c.locked then .error (.locked "shift", c)
  else if c.lockInd then .error (.lockedInd "shift", c)
  else if c.next = 0 then .ok (none, c)
  else
    match c.delete (.idx 0) with
    | .error e => .error e
    | .ok (v, c₁) => .ok (v, c₁.renumber 1 c₁.next (-1))

/-- Key reversal map of reverse: index key i becomes last - i; a
negative difference would stringify to a negative-index named key
(unreachable when every index key is below _next). -/
def revKey (last : Int) : Key → Key
  | .idx n => if (n : Int) ≤ last then .idx ((last - n).toNat) else .name (toString (last - (n : Int)))
  | .name s => .name s

/-- The reverse method: the key list is reversed and every index key i
is rewritten to last - i, values following their keys.  The source
builds a fresh storage object, so all value locks are dropped (their
property descriptors are not copied); _lockInd itself stays. -/
def NANOS.reverse (c : NANOS) : MRes Unit :=
  if c.locked then .error (.locked "reverse", c)
  else
    .ok ((), .mk c.next
      (c.entries.reverse.map (fun e => (revKey ((c.next : Int) - 1) e.1, e.2)))
      c.locked c.lockInd c.lockNew [])

/-- Raise of _next to a minimum (the minNext step of push). -/
def NANOS.raiseNext (c : NANOS) (m : Nat) : NANOS :=
  if c.next < m then c.withNext m else c

/-- The pushEntries fold of push: index keys are set at base + n
(base fixed at entry), named keys directly, in entry order. -/
def pushEnts (base : Nat) : NANOS → List (Key × Value) → Except (Err × NANOS) NANOS
  | c, [] => .ok c
  | c, (k, v) :: rest =>
    let ka : KeyArg :=
      match k with
      | .idx n => .idx (base + n)
      | .name s => .name s
    match c.set (some ka) v false with
    | .error e => .error e
    | .ok (_, c₁) => pushEnts base c₁ rest

/-- One outer push item: a nested container is merged entry-wise with
its next carried as minNext; every other value is set at the next
index (the plain-object / array / Map / Set cases of the source take
inputs outside the embedded value domain). -/
def NANOS.pushOne (c : NANOS) (v : Value) : Except (Err × NANOS) NANOS :=
  match v with
  | .list o =>
    match pushEnts c.next c o.entries with
    | .error e => .error e
    | .ok c₁ => .ok (c₁.raiseNext (c.next + o.next))
  | v => (c.set none v false).map (fun r => r.2)

/-- Left-to-right fold of the outer push items. -/
def pushAll : NANOS → List Value → Except (Err × NANOS) NANOS
  | c, [] => .ok c
  | c, v :: rest =>
    match c.pushOne v with
    | .error e => .error e
    | .ok c₁ => pushAll c₁ rest

/-- The push method: key-set lock check, then the outer items
left to right. -/
def NANOS.push (c : NANOS) (vs : List Value) : Except (Err × NANOS) NANOS :=
  if c.locked then .error (.locked "push", c) else pushAll c vs

/-- Insert-mode sets of fromEntries(entries, true): the entry list is
walked in reverse, each entry set with insert mode. -/
def fromEntsInsert : NANOS → List (Key × Value) → Except (Err × NANOS) NANOS
  | c, [] => .ok c
  | c, (k, v) :: rest =>
    match c.set (some k.arg) v true with
    | .error e => .error e
    | .ok (_, c₁) => fromEntsInsert c₁ rest

/-- The fromEntries method restricted to insert mode (as called from
unshift), with its own lock checks. -/
def NANOS.fromEntriesInsert (c : NANOS) (es : List (Key × Value)) :
    Except (Err × NANOS) NANOS :=
  if c.locked then .error (.locked "fromEntries", c)
  else if c.lockInd then .error (.lockedInd "fromEntries", c)
  else fromEntsInsert c es.reverse

/-- The container this.similar(v) builds for a non-container unshift
item: a fresh container holding v at index 0 with next 1. -/
def NANOS.similar1 (v : Value) : NANOS := .mk 1 [(.idx 0, v)] false false false []

/-- One outer unshift item: the item (wrapped by similar when not a
container) opens a gap of its next by renumbering [0, _next) up, then
its entries are insert-mode merged. -/
def unshiftOne (c : NANOS) (v : Value) : Except (Err × NANOS) NANOS :=
  let o : NANOS :=
    match v with
    | .list o => o
    | v => NANOS.similar1 v
  (c.renumber 0 c.next (o.next : Int)).fromEntriesInsert o.entries

/-- Right-to-left fold of the outer unshift items. -/
def unshiftAll : NANOS → List Value → Except (Err × NANOS) NANOS
  | c, [] => .ok c
  | c, v :: rest =>
    match unshiftOne c v with
    | .error e => .error e
    | .ok c₁ => unshiftAll c₁ rest

/-- The unshift method: the two lock checks, then the outer items in
reversed order. -/
def NANOS.unshift (c : NANOS) (vs : List Value) : Except (Err × NANOS) NANOS :=
  if c.locked then .error (.locked "unshift", c)
  else if c.lockInd then .error (.lockedInd "unshift", c)
  else unshiftAll c vs.reverse

/-- The clear method: everything reset except the lock-new mode; the
replaced storage object also drops all value locks. -/
def NANOS.clear (c : NANOS) : MRes Unit :=
  if c.locked then .error (.locked "clear", c)
  else .ok ((), .mk 0 [] c.locked false c.lockNew [])

/-- Index subsequence of a key list, in order. -/
def idxSeq (ks : List Key) : List Nat :=
  ks.filterMap (fun k => match k with | .idx n => some n | .name _ => none)

/-- Well-formedness of a key list with respect to a next counter:
distinct keys, the index keys strictly ascending in key order, and
every index key below next. -/
structure WFk (ks : List Key) (nx : Nat) : Prop where
  nodup : ks.Nodup
  asc : (idxSeq ks).Pairwise (· < ·)
  bound : ∀ n ∈ idxSeq ks, n < nx

/-- Well-formedness of a container: the key list is well-formed for
_next, and a value-locked index key always implies _lockInd (the lock
method sets the flag whenever it locks an index). -/
structure WF (c : NANOS) : Prop where
  keysWF : WFk c.keys c.next
  lockCons : ∀ k ∈ c.lockedVals, k.isIdx = true → c.lockInd = true

end Nanos

namespace Nanos

/-! Association-list lemmas shared by the frame and removal claims. -/

theorem assocLookup_filter_ne (k k₂ : Key) (es : List (Key × Value)) (h : k₂ ≠ k) :
    assocLookup k₂ (es.filter (fun e => e.1 ≠ k)) = assocLookup k₂ es := by
  simp only [ne_eq, decide_not]
  induction es with
  | nil => rfl
  | cons e t ih =>
    obtain ⟨k₁, v⟩ := e
    by_cases hk : k₁ = k
    · subst hk
      have h₁ : ¬(k₁ = k₂) := fun hc => h hc.symm
      simp [List.filter_cons, assocLookup, h₁, ih]
    · by_cases h₂ : k₁ = k₂
      · subst h₂
        simp [List.filter_cons, hk, assocLookup]
      · simp [List.filter_cons, hk, h₂, assocLookup, ih]

theorem assocLookup_filter_self (k : Key) (es : List (Key × Value)) :
    assocLookup k (es.filter (fun e => e.1 ≠ k)) = none := by
  simp only [ne_eq, decide_not]
  induction es with
  | nil => rfl
  | cons e t ih =>
    obtain ⟨k₁, v⟩ := e
    by_cases hk : k₁ = k <;> simp [List.filter_cons, hk, assocLookup, ih]

theorem map_fst_filter_ne (k : Key) (es : List (Key × Value)) :
    (es.filter (fun e => e.1 ≠ k)).map Prod.fst =
      (es.map Prod.fst).filter (fun x => x ≠ k) := by
  simp only [ne_eq, decide_not]
  induction es with
  | nil => rfl
  | cons e t ih =>
    obtain ⟨k₁, v⟩ := e
    by_cases hk : k₁ = k <;> simp [List.filter_cons, hk, ih]

theorem assocLookup_map (f : Key → Key) (es : List (Key × Value)) (k : Key)
    (h : ∀ e ∈ es, f e.1 = f k → e.1 = k) :
    assocLookup (f k) (es.map (fun e => (f e.1, e.2))) = assocLookup k es := by
  induction es with
  | nil => rfl
  | cons e t ih =>
    obtain ⟨k₁, v⟩ := e
    by_cases hk : k₁ = k
    · simp [hk, assocLookup]
    · have hf : f k₁ ≠ f k := by
        intro hcontra
        exact hk (h (k₁, v) (List.mem_cons_self _ _) hcontra)
      simp [assocLookup, hk, hf]
      exact ih (fun e he => h e (List.mem_cons_of_mem _ he))

/-! Claim C9: frame property of delete. -/

/-- C9: on a fully unlocked container, deleting a present key removes
exactly that entry: every other key keeps its stored value and its
relative position in the key list, and the next counter is unchanged
(no renumbering; the deleted index becomes a hole). -/
theorem delete_frame (c : NANOS) (k : Key) (v : Value)
    (hl : c.locked = false) (hlv : c.lockedVals = [])
    (hk : c.lookup k = some v) :
    ∃ c₁, c.delete k = .ok (some v, c₁) ∧
      c₁.keys = c.keys.filter (fun x => x ≠ k) ∧
      (∀ k₂, k₂ ≠ k → c₁.lookup k₂ = c.lookup k₂) ∧
      c₁.lookup k = none ∧
      c₁.next = c.next ∧ c₁.locked = c.locked ∧ c₁.lockInd = c.lockInd := by
  refine ⟨c.withEN c.next (c.entries.filter (fun e => e.1 ≠ k)), ?_, ?_, ?_, ?_, rfl, ?_, ?_⟩
  · unfold NANOS.delete
    rw [hl]
    simp only [Bool.false_eq_true, if_false]
    rw [show c.lookup k = some v from hk]
    simp [hlv]
  · exact map_fst_filter_ne k c.entries
  · intro k₂ h₂
    exact assocLookup_filter_ne k k₂ c.entries h₂
  · exact assocLookup_filter_self k c.entries
  · rfl
  · rfl

/-- C9 witness at a concrete container. -/
theorem delete_frame_witness :
    ∃ c₁, (NANOS.mk 2 [(.idx 0, .str "a"), (.name "k", .num 7)] false false false
      []).delete (.idx 0) = .ok (some (.str "a"), c₁) ∧
      c₁.keys = ((NANOS.mk 2 [(.idx 0, .str "a"), (.name "k", .num 7)] false false
        false []).keys.filter (fun x => x ≠ (.idx 0))) ∧
      (∀ k₂, k₂ ≠ (.idx 0) → c₁.lookup k₂ =
        (NANOS.mk 2 [(.idx 0, .str "a"), (.name "k", .num 7)] false false false
          []).lookup k₂) ∧
      c₁.lookup (.idx 0) = none ∧
      c₁.next = (NANOS.mk 2 [(.idx 0, .str "a"), (.name "k", .num 7)] false false
        false []).next ∧
      c₁.locked = (NANOS.mk 2 [(.idx 0, .str "a"), (.name "k", .num 7)] false false
        false []).locked ∧
      c₁.lockInd = (NANOS.mk 2 [(.idx 0, .str "a"), (.name "k", .num 7)] false
        false false []).lockInd :=
  delete_frame _ _ _ rfl rfl rfl

end Nanos

namespace Nanos

/-- Eta rule for the container state. -/
theorem NANOS.eta (c : NANOS) :
    NANOS.mk c.next c.entries c.locked c.lockInd c.lockNew c.lockedVals = c := by
  cases c
  rfl

theorem assocLookup_eq_none (k : Key) (es : List (Key × Value)) :
    assocLookup k es = none ↔ k ∉ es.map Prod.fst := by
  induction es with
  | nil => simp [assocLookup]
  | cons e t ih =>
    obtain ⟨k₁, v⟩ := e
    by_cases hk : k₁ = k
    · subst hk
      simp [assocLookup]
    · have hk₂ : ¬(k = k₁) := fun hc => hk hc.symm
      simp [assocLookup, hk, hk₂, ih]

theorem filter_of_not_mem (k : Key) (es : List (Key × Value))
    (h : assocLookup k es = none) : es.filter (fun e => e.1 ≠ k) = es := by
  rw [assocLookup_eq_none] at h
  refine List.filter_eq_self.mpr ?_
  intro e he
  have hne : e.1 ≠ k := fun hc => h (hc ▸ List.mem_map_of_mem Prod.fst he)
  simp [hne]

/-- Uniform description of delete on an unlocked container with the
target key not value-locked: the returned value is the stored value
(undefined when absent) and the entry, when present, is filtered out. -/
theorem delete_unlocked (c : NANOS) (k : Key) (hl : c.locked = false)
    (hlv : k ∉ c.lockedVals) :
    c.delete k = .ok (c.lookup k,
      c.withEN c.next (c.entries.filter (fun e => e.1 ≠ k))) := by
  unfold NANOS.delete
  rw [hl]
  simp only [Bool.false_eq_true, if_false]
  cases h : c.lookup k with
  | none =>
    rw [filter_of_not_mem k c.entries h]
    rw [show c.withEN c.next c.entries = c from NANOS.eta c]
  | some v =>
    simp [hlv]

/-! Claim C10: set with an out-of-range negative index. -/

/-- C10 (amended): on a container whose key-set is not locked, set with
a negative index whose magnitude exceeds next resolves below zero,
returns undefined and leaves the container unchanged, without any
throw.  (With the key-set locked, set throws before key resolution.) -/
theorem set_neg_underflow (c : NANOS) (n : Nat) (v : Value) (ins : Bool)
    (hl : c.locked = false) (hn : c.next < n) :
    c.set (some (.neg n)) v ins = .ok (none, c) := by
  unfold NANOS.set
  rw [hl]
  simp [NANOS.wrapKey, Nat.not_le.mpr hn]

/-- C10 witness: concrete application of the amended theorem. -/
theorem set_neg_underflow_witness :
    NANOS.empty.set (some (.neg 1)) (.num 5) false = .ok (none, NANOS.empty) :=
  set_neg_underflow NANOS.empty 1 (.num 5) false rfl (by decide)

/-- C10 counterexample to the unqualified claim: on a key-set-locked
container, the same call throws the locked TypeError instead of
silently returning undefined. -/
theorem set_neg_underflow_locked_cx :
    (NANOS.empty.lockKeys).next < 1 ∧
    (NANOS.empty.lockKeys).set (some (.neg 1)) (.num 5) false =
      .error (.locked "set", NANOS.empty.lockKeys) :=
  ⟨by decide, rfl⟩

/-! Claim C3: semantics after lockKeys. -/

/-- C3 counterexample: a reachable container (new NANOS of one string)
with the key set locked; index 0 is present and not value-locked, yet
set of that existing key throws rather than updating in place. -/
theorem lockKeys_set_existing_cx :
    NANOS.empty.push [.str "b"] =
      .ok (NANOS.mk 1 [(.idx 0, .str "b")] false false false []) ∧
    ((NANOS.mk 1 [(.idx 0, .str "b")] false false false []).lockKeys).lookup
      (.idx 0) = some (.str "b") ∧
    (Key.idx 0) ∉
      ((NANOS.mk 1 [(.idx 0, .str "b")] false false false []).lockKeys).lockedVals ∧
    ((NANOS.mk 1 [(.idx 0, .str "b")] false false false []).lockKeys).set
      (some (.idx 0)) (.str "y") false =
      .error (.locked "set",
        (NANOS.mk 1 [(.idx 0, .str "b")] false false false []).lockKeys) :=
  ⟨rfl, rfl, by decide, rfl⟩

/-- C3 (amended): after lockKeys, every mutating call throws the locked
TypeError - including set of an already-present key whose value is
not individually locked - while reads (at, keys, next) still succeed
unchanged. -/
theorem lockKeys_semantics (c : NANOS) (k : KeyArg) (k₂ : Key) (v : Value)
    (ins : Bool) (vs : List Value) :
    (c.lockKeys).set (some k) v ins = .error (.locked "set", c.lockKeys) ∧
    (c.lockKeys).delete k₂ = .error (.locked "delete", c.lockKeys) ∧
    (c.lockKeys).push vs = .error (.locked "push", c.lockKeys) ∧
    (c.lockKeys).unshift vs = .error (.locked "unshift", c.lockKeys) ∧
    (c.lockKeys).pop = .error (.locked "pop", c.lockKeys) ∧
    (c.lockKeys).shift = .error (.locked "shift", c.lockKeys) ∧
    (c.lockKeys).clear = .error (.locked "clear", c.lockKeys) ∧
    (c.lockKeys).reverse = .error (.locked "reverse", c.lockKeys) ∧
    (c.lockKeys).at k = c.at k ∧
    (c.lockKeys).keys = c.keys ∧ (c.lockKeys).next = c.next :=
  ⟨rfl, rfl, rfl, rfl, rfl, rfl, rfl, rfl, rfl, rfl, rfl⟩

end Nanos

namespace Nanos

/-- Computation of the renumber call made by shift. -/
theorem renumber_shift (c : NANOS) (m : Nat) (hnext : c.next = m + 1) :
    c.renumber 1 c.next (-1) =
      c.withEN m (c.entries.map (fun e => (renumKey 1 (m + 1) (-1) e.1, e.2))) := by
  unfold NANOS.renumber
  rw [hnext]
  have h1 : ¬(0 < (-1 : Int)) := by decide
  have h2 : (-1 : Int) < 0 := by decide
  have h3 : (((m + 1 : Nat) : Int) + (-1)).toNat = m := by omega
  have h4 : ¬((-1 : Int) = 0) := by decide
  simp [h1, h2, h3, h4]

/-- Action of the shift renumbering on an interior index key. -/
theorem renumKey_shift_idx (m j : Nat) (hj : j < m) :
    renumKey 1 (m + 1) (-1) (.idx (j + 1)) = .idx j := by
  unfold renumKey
  have hb : 1 ≤ j + 1 ∧ j + 1 < m + 1 := ⟨by omega, by omega⟩
  have ht : (((j + 1 : Nat) : Int) + (-1)).toNat = j := by omega
  simp [hb, ht]

/-! Claim C6: pop and shift. -/

/-- C6 counterexample: a container with a stored index entry 0 and a
trailing hole (next = 2).  pop returns undefined and removes no entry
although the container does have an index entry, refuting the claimed
equivalence of undefined results with the absence of index entries. -/
theorem pop_trailing_hole_cx :
    (NANOS.mk 2 [(.idx 0, .str "a")] false false false []).pop =
      .ok (none, NANOS.mk 1 [(.idx 0, .str "a")] false false false []) ∧
    idxSeq (NANOS.mk 2 [(.idx 0, .str "a")] false false false []).keys ≠ [] :=
  ⟨rfl, by decide⟩

/-- C6 (amended): pop and shift act on index slots, not index entries:
with both locks clear, pop removes slot next-1 and returns its stored
value (undefined when that slot is a hole, even if other index
entries exist), shift removes slot 0 the same way and renumbers the
remaining index keys down by one; next = 0 yields undefined with no
mutation; a key-set lock or index lock makes both throw the
corresponding TypeError with the container untouched. -/
theorem pop_shift_slot_semantics (c : NANOS) :
    (c.locked = true →
      c.pop = .error (.locked "pop", c) ∧ c.shift = .error (.locked "shift", c)) ∧
    (c.locked = false → c.lockInd = true →
      c.pop = .error (.lockedInd "pop", c) ∧
      c.shift = .error (.lockedInd "shift", c)) ∧
    (c.locked = false → c.lockInd = false → c.next = 0 →
      c.pop = .ok (none, c) ∧ c.shift = .ok (none, c)) ∧
    (∀ m, c.locked = false → c.lockInd = false →
      (∀ k ∈ c.lockedVals, k.isIdx = false) → c.next = m + 1 →
      (∃ c₁, c.pop = .ok (c.lookup (.idx m), c₁) ∧ c₁.next = m ∧
        c₁.lookup (.idx m) = none ∧
        (∀ k, k ≠ Key.idx m → c₁.lookup k = c.lookup k)) ∧
      (∃ c₂, c.shift = .ok (c.lookup (.idx 0), c₂) ∧ c₂.next = m ∧
        (∀ j, j < m → c₂.lookup (.idx j) = c.lookup (.idx (j + 1))) ∧
        (∀ s, c₂.lookup (.name s) = c.lookup (.name s)))) := by
  refine ⟨?_, ?_, ?_, ?_⟩
  · intro hl
    refine ⟨?_, ?_⟩
    · unfold NANOS.pop
      rw [hl]
      simp
    · unfold NANOS.shift
      rw [hl]
      simp
  · intro hl hli
    refine ⟨?_, ?_⟩
    · unfold NANOS.pop
      rw [hl, hli]
      simp
    · unfold NANOS.shift
      rw [hl, hli]
      simp
  · intro hl hli hz
    refine ⟨?_, ?_⟩
    · unfold NANOS.pop
      rw [hl, hli, hz]
      simp
    · unfold NANOS.shift
      rw [hl, hli, hz]
      simp
  · intro m hl hli hlv hnext
    have hm : (Key.idx m) ∉ c.lockedVals := by
      intro hmem
      simpa [Key.isIdx] using hlv _ hmem
    have h0 : (Key.idx 0) ∉ c.lockedVals := by
      intro hmem
      simpa [Key.isIdx] using hlv _ hmem
    constructor
    · -- pop
      have hpop : c.pop = (c.withNext m).delete (.idx m) := by
        unfold NANOS.pop
        rw [hl, hli, hnext]
        simp
      rw [hpop, delete_unlocked (c.withNext m) (.idx m) hl hm]
      refine ⟨_, rfl, rfl, ?_, ?_⟩
      · exact assocLookup_filter_self _ _
      · intro k hk
        exact assocLookup_filter_ne _ _ _ hk
    · -- shift
      have hne : ¬(c.next = 0) := by omega
      have hsh : c.shift =
          match c.delete (.idx 0) with
          | .error e => .error e
          | .ok (v, c₁) => .ok (v, c₁.renumber 1 c₁.next (-1)) := by
        unfold NANOS.shift
        rw [hl, hli]
        simp [hne]
      rw [hsh, delete_unlocked c (.idx 0) hl h0]
      dsimp only
      have hn₁ : (c.withEN c.next
          (c.entries.filter (fun e => e.1 ≠ (Key.idx 0)))).next = m + 1 := hnext
      rw [renumber_shift _ m hn₁]
      refine ⟨_, rfl, rfl, ?_, ?_⟩
      · intro j hj
        have hfj := renumKey_shift_idx m j hj
        have hinj : ∀ e ∈ c.entries.filter (fun e => e.1 ≠ (Key.idx 0)),
            renumKey 1 (m + 1) (-1) e.1 = renumKey 1 (m + 1) (-1) (.idx (j + 1)) →
            e.1 = Key.idx (j + 1) := by
          intro e he hfe
          rw [hfj] at hfe
          cases he1 : e.1 with
          | name s =>
            rw [he1] at hfe
            exact absurd hfe (by simp [renumKey])
          | idx n =>
            rw [he1] at hfe
            simp only [renumKey] at hfe
            by_cases hb : 1 ≤ n ∧ n < m + 1
            · rw [if_pos hb] at hfe
              injection hfe with hv
              have hn : n = j + 1 := by omega
              rw [hn]
            · rw [if_neg hb] at hfe
              injection hfe with hv
              have hn0 : n ≠ 0 := by
                intro hz
                have hmem := List.of_mem_filter he
                rw [he1, hz] at hmem
                simp at hmem
              omega
        have hmain := assocLookup_map (renumKey 1 (m + 1) (-1))
          (c.entries.filter (fun e => e.1 ≠ (Key.idx 0))) (.idx (j + 1)) hinj
        rw [hfj] at hmain
        show assocLookup (Key.idx j)
            ((c.entries.filter (fun e => e.1 ≠ (Key.idx 0))).map
              (fun e => (renumKey 1 (m + 1) (-1) e.1, e.2))) =
          assocLookup (Key.idx (j + 1)) c.entries
        rw [hmain]
        exact assocLookup_filter_ne _ _ _ (by simp)
      · intro s
        have hinj : ∀ e ∈ c.entries.filter (fun e => e.1 ≠ (Key.idx 0)),
            renumKey 1 (m + 1) (-1) e.1 = renumKey 1 (m + 1) (-1) (.name s) →
            e.1 = Key.name s := by
          intro e he hfe
          cases he1 : e.1 with
          | name t =>
            rw [he1] at hfe
            simpa [renumKey] using hfe
          | idx n =>
            rw [he1] at hfe
            simp only [renumKey] at hfe
            by_cases hb : 1 ≤ n ∧ n < m + 1
            · rw [if_pos hb] at hfe
              exact absurd hfe (by simp [renumKey])
            · rw [if_neg hb] at hfe
              exact absurd hfe (by simp [renumKey])
        have hmain := assocLookup_map (renumKey 1 (m + 1) (-1))
          (c.entries.filter (fun e => e.1 ≠ (Key.idx 0))) (.name s) hinj
        show assocLookup (Key.name s)
            ((c.entries.filter (fun e => e.1 ≠ (Key.idx 0))).map
              (fun e => (renumKey 1 (m + 1) (-1) e.1, e.2))) =
          assocLookup (Key.name s) c.entries
        rw [show renumKey 1 (m + 1) (-1) (Key.name s) = Key.name s from rfl] at hmain
        rw [hmain]
        exact assocLookup_filter_ne _ _ _ (by simp)

/-- C6 witness: concrete application of the amended theorem at a
sparse container with next = 2 and only slot 0 stored. -/
theorem pop_shift_slot_semantics_witness :
    (∃ c₁, (NANOS.mk 2 [(.idx 0, .str "a")] false false false []).pop =
      .ok ((NANOS.mk 2 [(.idx 0, .str "a")] false false false []).lookup (.idx 1),
        c₁) ∧
      c₁.next = 1 ∧ c₁.lookup (.idx 1) = none ∧
      (∀ k, k ≠ Key.idx 1 → c₁.lookup k =
        (NANOS.mk 2 [(.idx 0, .str "a")] false false false []).lookup k)) ∧
    (∃ c₂, (NANOS.mk 2 [(.idx 0, .str "a")] false false false []).shift =
      .ok ((NANOS.mk 2 [(.idx 0, .str "a")] false false false []).lookup (.idx 0),
        c₂) ∧
      c₂.next = 1 ∧
      (∀ j, j < 1 → c₂.lookup (.idx j) =
        (NANOS.mk 2 [(.idx 0, .str "a")] false false false []).lookup (.idx (j + 1))) ∧
      (∀ s, c₂.lookup (.name s) =
        (NANOS.mk 2 [(.idx 0, .str "a")] false false false []).lookup (.name s))) :=
  (pop_shift_slot_semantics
    (NANOS.mk 2 [(.idx 0, .str "a")] false false false [])).2.2.2 1 rfl rfl
    (by decide) rfl

end Nanos

namespace Nanos

/-! Groundwork on the index subsequence for the ascending invariant. -/

theorem idxSeq_append (a b : List Key) :
    idxSeq (a ++ b) = idxSeq a ++ idxSeq b :=
  List.filterMap_append a b _

theorem idxSeq_cons_idx (n : Nat) (ks : List Key) :
    idxSeq (.idx n :: ks) = n :: idxSeq ks := rfl

theorem idxSeq_cons_name (s : String) (ks : List Key) :
    idxSeq (.name s :: ks) = idxSeq ks := rfl

theorem mem_idxSeq (n : Nat) (ks : List Key) :
    n ∈ idxSeq ks ↔ Key.idx n ∈ ks := by
  unfold idxSeq
  rw [List.mem_filterMap]
  constructor
  · rintro ⟨k, hk, he⟩
    cases k with
    | idx m =>
      simp only [Option.some.injEq] at he
      exact he ▸ hk
    | name s => simp at he
  · intro hk
    exact ⟨.idx n, hk, rfl⟩

theorem idxSeq_reverse (ks : List Key) :
    idxSeq ks.reverse = (idxSeq ks).reverse := by
  unfold idxSeq
  exact List.filterMap_reverse _ ks

/-- Insertion of a fresh index in a position where everything to the
left is below it and everything to the right above it keeps the index
subsequence strictly ascending. -/
theorem asc_middle (A B : List Key) (n : Nat)
    (hA : ∀ x ∈ idxSeq A, x < n) (hB : ∀ x ∈ idxSeq B, n < x)
    (hAB : (idxSeq (A ++ B)).Pairwise (· < ·)) :
    (idxSeq (A ++ (Key.idx n) :: B)).Pairwise (· < ·) := by
  rw [idxSeq_append] at hAB
  rw [List.pairwise_append] at hAB
  rw [idxSeq_append, idxSeq_cons_idx, List.pairwise_append]
  refine ⟨hAB.1, ?_, ?_⟩
  · rw [List.pairwise_cons]
    exact ⟨hB, hAB.2.1⟩
  · intro a ha x hx
    rcases List.mem_cons.mp hx with hx | hx
    · exact hx ▸ hA a ha
    · exact lt_trans (hA a ha) (hB x hx)

/-- Insertion of an absent key anywhere preserves distinctness. -/
theorem nodup_middle_insert (A B : List Key) (k : Key)
    (h : (A ++ B).Nodup) (hk : k ∉ A ++ B) : (A ++ k :: B).Nodup := by
  rw [List.nodup_middle]
  exact List.nodup_cons.mpr ⟨hk, h⟩

/-- Case split on dropWhile: empty, or starting with a failing element. -/
theorem dropWhile_cases {α : Type} (p : α → Bool) (l : List α) :
    l.dropWhile p = [] ∨
    ∃ k t, l.dropWhile p = k :: t ∧ p k = false := by
  induction l with
  | nil => exact Or.inl rfl
  | cons a l ih =>
    by_cases hp : p a
    · rw [List.dropWhile_cons_of_pos hp]
      exact ih
    · rw [List.dropWhile_cons_of_neg (by simpa using hp)]
      exact Or.inr ⟨a, l, rfl, by simpa using hp⟩

end Nanos

namespace Nanos

theorem map_fst_takeWhile (q : Key → Bool) (es : List (Key × Value)) :
    (es.takeWhile (fun p => q p.1)).map Prod.fst = (es.map Prod.fst).takeWhile q := by
  induction es with
  | nil => rfl
  | cons e t ih =>
    by_cases hq : q e.1 <;>
      simp [List.takeWhile_cons, hq, ih]

theorem map_fst_dropWhile (q : Key → Bool) (es : List (Key × Value)) :
    (es.dropWhile (fun p => q p.1)).map Prod.fst = (es.map Prod.fst).dropWhile q := by
  induction es with
  | nil => rfl
  | cons e t ih =>
    by_cases hq : q e.1 <;>
      simp [List.dropWhile_cons, hq, ih]

theorem assocReplace_keys (k : Key) (v : Value) (es : List (Key × Value)) :
    (assocReplace k v es).map Prod.fst = es.map Prod.fst := by
  induction es with
  | nil => rfl
  | cons e t ih =>
    obtain ⟨k₁, v₁⟩ := e
    by_cases hk : k₁ = k <;> simp [assocReplace, hk, ih]

theorem idx_takeWhile_append_lt (n : Nat) (ks : List Key) :
    ∀ x ∈ idxSeq (ks.takeWhile (skipAppend n)), x < n := by
  intro x hx
  have hk := (mem_idxSeq x _).mp hx
  have hp := List.mem_takeWhile_imp hk
  simpa [skipAppend] using hp

theorem idx_dropWhile_append_gt (n : Nat) (ks : List Key)
    (hnotin : Key.idx n ∉ ks) (hasc : (idxSeq ks).Pairwise (· < ·)) :
    ∀ x ∈ idxSeq (ks.dropWhile (skipAppend n)), n < x := by
  rcases dropWhile_cases (skipAppend n) ks with h | ⟨k, t, h, hk⟩
  · rw [h]
    intro x hx
    simp [idxSeq] at hx
  · have hsub : (k :: t).Sublist ks := h ▸ List.dropWhile_sublist _
    obtain ⟨m, rfl⟩ : ∃ m, k = Key.idx m := by
      cases k with
      | idx m => exact ⟨m, rfl⟩
      | name s => simp [skipAppend] at hk
    have hmn : ¬(m < n) := by simpa [skipAppend] using hk
    have hmem : Key.idx m ∈ ks := hsub.subset (List.mem_cons_self _ _)
    have hne : m ≠ n := fun hmn₁ => hnotin (hmn₁ ▸ hmem)
    have hgt : n < m := by omega
    have hpw : (idxSeq (Key.idx m :: t)).Pairwise (· < ·) :=
      hasc.sublist (List.Sublist.filterMap _ hsub)
    rw [h]
    intro x hx
    rw [idxSeq_cons_idx] at hx hpw
    rcases List.mem_cons.mp hx with hx | hx
    · omega
    · exact lt_trans hgt (List.rel_of_pairwise_cons hpw hx)

theorem idx_takeWhile_insert_gt (n : Nat) (ks : List Key) :
    ∀ x ∈ idxSeq ((ks.reverse.takeWhile (skipInsert n)).reverse), n < x := by
  intro x hx
  have hk := (mem_idxSeq x _).mp hx
  rw [List.mem_reverse] at hk
  have hp := List.mem_takeWhile_imp hk
  simpa [skipInsert] using hp

theorem idx_dropWhile_insert_lt (n : Nat) (ks : List Key)
    (hnotin : Key.idx n ∉ ks) (hasc : (idxSeq ks).Pairwise (· < ·)) :
    ∀ x ∈ idxSeq ((ks.reverse.dropWhile (skipInsert n)).reverse), x < n := by
  rcases dropWhile_cases (skipInsert n) ks.reverse with h | ⟨k, t, h, hk⟩
  · rw [h]
    intro x hx
    simp [idxSeq] at hx
  · have hsub : (k :: t).Sublist ks.reverse := h ▸ List.dropWhile_sublist _
    obtain ⟨m, rfl⟩ : ∃ m, k = Key.idx m := by
      cases k with
      | idx m => exact ⟨m, rfl⟩
      | name s => simp [skipInsert] at hk
    have hmn : ¬(n < m) := by simpa [skipInsert] using hk
    have hmem : Key.idx m ∈ ks := List.mem_reverse.mp (hsub.subset (List.mem_cons_self _ _))
    have hne : m ≠ n := fun hmn₁ => hnotin (hmn₁ ▸ hmem)
    have hlt : m < n := by omega
    have hpw : (idxSeq (Key.idx m :: t).reverse).Pairwise (· < ·) := by
      have hsub₂ : (Key.idx m :: t).reverse.Sublist ks := by
        have := hsub.reverse
        rwa [List.reverse_reverse] at this
      exact hasc.sublist (List.Sublist.filterMap _ hsub₂)
    rw [h]
    intro x hx
    have hx₂ := hx
    rw [List.reverse_cons] at hx₂ hpw
    rw [idxSeq_append, idxSeq_cons_idx] at hx₂ hpw
    rw [List.pairwise_append] at hpw
    rcases List.mem_append.mp hx₂ with hx₂ | hx₂
    · have := hpw.2.2 x hx₂ m (by simp [idxSeq])
      omega
    · simp [idxSeq] at hx₂
      omega

/-! WFk preservation for each placement case of set. -/

theorem WFk_cons_named (ks : List Key) (nx : Nat) (s : String)
    (h : WFk ks nx) (hnew : Key.name s ∉ ks) : WFk (.name s :: ks) nx := by
  refine ⟨List.nodup_cons.mpr ⟨hnew, h.nodup⟩, ?_, ?_⟩
  · rw [idxSeq_cons_name]
    exact h.asc
  · rw [idxSeq_cons_name]
    exact h.bound

theorem WFk_append_named (ks : List Key) (nx : Nat) (s : String)
    (h : WFk ks nx) (hnew : Key.name s ∉ ks) : WFk (ks ++ [.name s]) nx := by
  refine ⟨?_, ?_, ?_⟩
  · have := nodup_middle_insert ks [] (.name s) (by simpa using h.nodup)
      (by simpa using hnew)
    simpa using this
  · rw [idxSeq_append]
    simpa [idxSeq] using h.asc
  · rw [idxSeq_append]
    simpa [idxSeq] using h.bound

theorem WFk_append_big (ks : List Key) (nx n : Nat)
    (h : WFk ks nx) (hge : nx ≤ n) : WFk (ks ++ [.idx n]) (n + 1) := by
  have hnew : Key.idx n ∉ ks := by
    intro hmem
    have := h.bound n ((mem_idxSeq n ks).mpr hmem)
    omega
  refine ⟨?_, ?_, ?_⟩
  · have := nodup_middle_insert ks [] (.idx n) (by simpa using h.nodup)
      (by simpa using hnew)
    simpa using this
  · rw [idxSeq_append]
    rw [List.pairwise_append]
    refine ⟨h.asc, by simp [idxSeq], ?_⟩
    intro a ha x hx
    have := h.bound a ha
    simp [idxSeq] at hx
    omega
  · rw [idxSeq_append]
    intro x hx
    rcases List.mem_append.mp hx with hx | hx
    · have := h.bound x hx
      omega
    · simp [idxSeq] at hx
      omega

theorem WFk_insertAppend (ks : List Key) (nx n : Nat)
    (h : WFk ks nx) (hlt : n < nx) (hnew : Key.idx n ∉ ks) :
    WFk (ks.takeWhile (skipAppend n) ++ .idx n :: ks.dropWhile (skipAppend n)) nx := by
  have hsplit : ks.takeWhile (skipAppend n) ++ ks.dropWhile (skipAppend n) = ks :=
    List.takeWhile_append_dropWhile (skipAppend n) ks
  have hnd : (ks.takeWhile (skipAppend n) ++ ks.dropWhile (skipAppend n)).Nodup := by
    rw [hsplit]
    exact h.nodup
  have hni : Key.idx n ∉ ks.takeWhile (skipAppend n) ++ ks.dropWhile (skipAppend n) := by
    rw [hsplit]
    exact hnew
  have hac : (idxSeq (ks.takeWhile (skipAppend n) ++
      ks.dropWhile (skipAppend n))).Pairwise (· < ·) := by
    rw [hsplit]
    exact h.asc
  refine ⟨?_, ?_, ?_⟩
  · exact nodup_middle_insert _ _ _ hnd hni
  · refine asc_middle _ _ n (idx_takeWhile_append_lt n ks)
      (idx_dropWhile_append_gt n ks hnew h.asc) hac
  · intro x hx
    rw [idxSeq_append, idxSeq_cons_idx] at hx
    rcases List.mem_append.mp hx with hx | hx
    · exact h.bound x (by
        rw [← hsplit, idxSeq_append]
        exact List.mem_append.mpr (Or.inl hx))
    · rcases List.mem_cons.mp hx with hx | hx
      · omega
      · exact h.bound x (by
          rw [← hsplit, idxSeq_append]
          exact List.mem_append.mpr (Or.inr hx))

theorem WFk_cons_idx (ks : List Key) (n : Nat)
    (h : WFk ks 0) : WFk (.idx n :: ks) (n + 1) := by
  have hempty : idxSeq ks = [] := by
    rcases hni : idxSeq ks with _ | ⟨x, t⟩
    · rfl
    · have := h.bound x (by rw [hni]; exact List.mem_cons_self _ _)
      omega
  have hnew : Key.idx n ∉ ks := by
    intro hmem
    have := (mem_idxSeq n ks).mpr hmem
    rw [hempty] at this
    simp at this
  refine ⟨List.nodup_cons.mpr ⟨hnew, h.nodup⟩, ?_, ?_⟩
  · rw [idxSeq_cons_idx, hempty]
    simp
  · rw [idxSeq_cons_idx, hempty]
    intro x hx
    simp at hx
    omega

theorem WFk_insertInsert (ks : List Key) (nx nx₂ n : Nat)
    (h : WFk ks nx) (hnew : Key.idx n ∉ ks)
    (hnx : nx ≤ nx₂) (hn : n < nx₂) :
    WFk ((ks.reverse.dropWhile (skipInsert n)).reverse ++
      .idx n :: (ks.reverse.takeWhile (skipInsert n)).reverse) nx₂ := by
  have hsplit : (ks.reverse.dropWhile (skipInsert n)).reverse ++
      (ks.reverse.takeWhile (skipInsert n)).reverse = ks := by
    rw [← List.reverse_append, List.takeWhile_append_dropWhile, List.reverse_reverse]
  have hnd : ((ks.reverse.dropWhile (skipInsert n)).reverse ++
      (ks.reverse.takeWhile (skipInsert n)).reverse).Nodup := by
    rw [hsplit]
    exact h.nodup
  have hni : Key.idx n ∉ (ks.reverse.dropWhile (skipInsert n)).reverse ++
      (ks.reverse.takeWhile (skipInsert n)).reverse := by
    rw [hsplit]
    exact hnew
  have hac : (idxSeq ((ks.reverse.dropWhile (skipInsert n)).reverse ++
      (ks.reverse.takeWhile (skipInsert n)).reverse)).Pairwise (· < ·) := by
    rw [hsplit]
    exact h.asc
  refine ⟨?_, ?_, ?_⟩
  · exact nodup_middle_insert _ _ _ hnd hni
  · exact asc_middle _ _ n (idx_dropWhile_insert_lt n ks hnew h.asc)
      (idx_takeWhile_insert_gt n ks) hac
  · intro x hx
    rw [idxSeq_append, idxSeq_cons_idx] at hx
    rcases List.mem_append.mp hx with hx | hx
    · have : x ∈ idxSeq ks := by
        rw [← hsplit, idxSeq_append]
        exact List.mem_append.mpr (Or.inl hx)
      have := h.bound x this
      omega
    · rcases List.mem_cons.mp hx with hx | hx
      · omega
      · have : x ∈ idxSeq ks := by
          rw [← hsplit, idxSeq_append]
          exact List.mem_append.mpr (Or.inr hx)
        have := h.bound x this
        omega

end Nanos

namespace Nanos

/-- Post-state of a mutating method, error or not (the observation
point after the call). -/
def mresState {α : Type} : MRes α → NANOS
  | .ok (_, c) => c
  | .error (_, c) => c

/-- Post-state of a bulk method, error or not. -/
def eresState : Except (Err × NANOS) NANOS → NANOS
  | .ok c => c
  | .error (_, c) => c

/-- The mutating operations named by the invariant claim. -/
inductive Op where
  | setOp (k : Option KeyArg) (v : Value) (insert : Bool)
  | pushOp (vs : List Value)
  | unshiftOp (vs : List Value)
  | deleteOp (k : Key)
  | shiftOp
  | popOp
  | reverseOp

/-- State observed after running one operation (on a throw, the state
at the throw). -/
def applyOp (c : NANOS) : Op → NANOS
  | .setOp k v i => mresState (c.set k v i)
  | .pushOp vs => eresState (c.push vs)
  | .unshiftOp vs => eresState (c.unshift vs)
  | .deleteOp k => mresState (c.delete k)
  | .shiftOp => mresState c.shift
  | .popOp => mresState c.pop
  | .reverseOp => mresState c.reverse

theorem WF_applyLockNew (c : NANOS) (k : Key) (h : WF c) :
    WF (c.applyLockNew k) := by
  unfold NANOS.applyLockNew
  by_cases hl : c.lockNew
  · rw [if_pos hl]
    refine ⟨h.keysWF, ?_⟩
    intro k₂ hk₂ hidx
    show (c.lockInd || k.isIdx) = true
    rcases List.mem_cons.mp hk₂ with hk₂ | hk₂
    · rw [hk₂] at hidx
      simp [hidx]
    · simp [h.lockCons k₂ hk₂ hidx]
  · rw [if_neg hl]
    exact h

theorem WF_withEN_keys (c : NANOS) (nx : Nat) (es : List (Key × Value))
    (hk : WFk (es.map Prod.fst) nx)
    (hlc : ∀ k ∈ c.lockedVals, k.isIdx = true → c.lockInd = true) :
    WF (c.withEN nx es) :=
  ⟨hk, hlc⟩

/-- Preservation of well-formedness by set, at every outcome. -/
theorem WF_set (c : NANOS) (k? : Option KeyArg) (v : Value) (ins : Bool)
    (h : WF c) : WF (mresState (c.set k? v ins)) := by
  unfold NANOS.set
  by_cases hl : c.locked
  · simp only [hl, if_true]
    exact h
  · simp only [hl, Bool.false_eq_true, if_false]
    rcases hw : c.wrapKey (k?.getD (.idx c.next)) with _ | key
    · exact h
    · rcases hlk : c.lookup key with _ | v₀
      · -- new key
        have hnew : key ∉ c.keys := (assocLookup_eq_none key c.entries).mp hlk
        by_cases hins : ins
        · cases key with
          | name s =>
            simp only [hlk, hins, mresState, if_true, ite_true]
            refine WF_applyLockNew _ _ (WF_withEN_keys _ _ _ ?_ h.lockCons)
            rw [List.map_cons]
            exact WFk_cons_named _ _ s h.keysWF hnew
          | idx n =>
            by_cases hz : c.next = 0
            · simp only [hlk, hins, hz, mresState, if_true, ite_true]
              refine WF_applyLockNew _ _ (WF_withEN_keys _ _ _ ?_ h.lockCons)
              rw [List.map_cons, if_pos (Nat.zero_le n)]
              exact WFk_cons_idx _ _ (hz ▸ h.keysWF)
            · simp only [hlk, hins, hz, mresState, if_true, ite_true, if_false,
                ite_false]
              refine WF_applyLockNew _ _ (WF_withEN_keys _ _ _ ?_ h.lockCons)
              show WFk (List.map Prod.fst
                ((c.entries.reverse.dropWhile (fun p => skipInsert n p.1)).reverse ++
                  (Key.idx n, v) ::
                  (c.entries.reverse.takeWhile (fun p => skipInsert n p.1)).reverse))
                (if c.next ≤ n then n + 1 else c.next)
              rw [List.map_append, List.map_cons]
              rw [List.map_reverse, List.map_reverse, map_fst_dropWhile,
                map_fst_takeWhile, List.map_reverse]
              by_cases hc : c.next ≤ n
              · rw [if_pos hc]
                exact WFk_insertInsert c.keys c.next (n + 1) n h.keysWF hnew
                  (by omega) (by omega)
              · rw [if_neg hc]
                exact WFk_insertInsert c.keys c.next c.next n h.keysWF hnew
                  (le_refl _) (by omega)
        · cases key with
          | name s =>
            simp only [hlk, hins, mresState, if_false, ite_false,
              Bool.false_eq_true]
            refine WF_applyLockNew _ _ (WF_withEN_keys _ _ _ ?_ h.lockCons)
            rw [List.map_append, List.map_singleton]
            exact WFk_append_named _ _ s h.keysWF hnew
          | idx n =>
            by_cases hc : c.next ≤ n
            · simp only [hlk, hins, hc, mresState, if_true, ite_true, if_false,
                ite_false, Bool.false_eq_true]
              refine WF_applyLockNew _ _ (WF_withEN_keys _ _ _ ?_ h.lockCons)
              rw [List.map_append, List.map_singleton]
              exact WFk_append_big _ _ _ h.keysWF hc
            · simp only [hlk, hins, hc, mresState, if_true, ite_true, if_false,
                ite_false, Bool.false_eq_true]
              refine WF_applyLockNew _ _ (WF_withEN_keys _ _ _ ?_ h.lockCons)
              show WFk (List.map Prod.fst
                (c.entries.takeWhile (fun p => skipAppend n p.1) ++
                  (Key.idx n, v) ::
                  c.entries.dropWhile (fun p => skipAppend n p.1))) c.next
              rw [List.map_append, List.map_cons, map_fst_dropWhile,
                map_fst_takeWhile]
              exact WFk_insertAppend c.keys c.next n h.keysWF (by omega) hnew
      · -- existing key
        by_cases hlv : key ∈ c.lockedVals
        · simp only [hlk, hlv, if_true, ite_true, mresState]
          exact h
        · simp only [hlk, hlv, if_false, ite_false, mresState]
          refine WF_applyLockNew _ _ (WF_withEN_keys _ _ _ ?_ h.lockCons)
          rw [assocReplace_keys]
          exact h.keysWF

end Nanos

namespace Nanos

theorem WFk_sublist (ks₂ ks : List Key) (nx : Nat)
    (hsub : ks₂.Sublist ks) (h : WFk ks nx) : WFk ks₂ nx := by
  refine ⟨h.nodup.sublist hsub, h.asc.sublist (hsub.filterMap _), ?_⟩
  intro n hn
  exact h.bound n ((mem_idxSeq n ks).mpr (hsub.subset ((mem_idxSeq n ks₂).mp hn)))

theorem map_fst_keyMap (f : Key → Key) (es : List (Key × Value)) :
    (es.map (fun e => (f e.1, e.2))).map Prod.fst = (es.map Prod.fst).map f := by
  induction es with
  | nil => rfl
  | cons e t ih => simp [ih]

/-- Preservation of well-formedness by delete, at every outcome. -/
theorem WF_delete (c : NANOS) (k : Key) (h : WF c) :
    WF (mresState (c.delete k)) := by
  unfold NANOS.delete
  by_cases hl : c.locked
  · simp only [hl, if_true, mresState]
    exact h
  · simp only [hl, Bool.false_eq_true, if_false]
    rcases hlk : c.lookup k with _ | v
    · simp only [hlk, mresState]
      exact h
    · by_cases hlv : k ∈ c.lockedVals
      · simp only [hlk, hlv, if_true, ite_true, mresState]
        exact h
      · simp only [hlk, hlv, if_false, ite_false, mresState]
        refine WF_withEN_keys _ _ _ ?_ h.lockCons
        rw [map_fst_filter_ne]
        exact WFk_sublist _ _ _ (List.filter_sublist _) h.keysWF

/-- Preservation of well-formedness by pop, at every outcome. -/
theorem WF_pop (c : NANOS) (h : WF c) : WF (mresState c.pop) := by
  unfold NANOS.pop
  by_cases hl : c.locked
  · simp only [hl, if_true, mresState]
    exact h
  · by_cases hli : c.lockInd
    · simp only [hl, hli, Bool.false_eq_true, if_false, if_true, mresState]
      exact h
    · by_cases hz : c.next = 0
      · simp only [hl, hli, hz, Bool.false_eq_true, if_false, if_true, mresState]
        exact h
      · simp only [hl, hli, hz, Bool.false_eq_true, if_false, mresState]
        have hnl : (Key.idx (c.next - 1)) ∉ c.lockedVals := by
          intro hmem
          exact hli (h.lockCons _ hmem rfl)
        have hl₂ : c.locked = false := by simpa using hl
        rw [delete_unlocked (c.withNext (c.next - 1)) (.idx (c.next - 1)) hl₂ hnl]
        simp only [mresState]
        refine WF_withEN_keys _ _ _ ?_ h.lockCons
        show WFk ((c.entries.filter
            (fun e => e.1 ≠ (Key.idx (c.next - 1)))).map Prod.fst) (c.next - 1)
        rw [map_fst_filter_ne]
        have hsub := WFk_sublist
          ((c.entries.map Prod.fst).filter (fun x => x ≠ (Key.idx (c.next - 1))))
          c.keys c.next (List.filter_sublist _) h.keysWF
        refine ⟨hsub.nodup, hsub.asc, ?_⟩
        intro x hx
        have hmem := (mem_idxSeq x _).mp hx
        have hmem₂ := List.mem_filter.mp hmem
        have hb := h.keysWF.bound x ((mem_idxSeq x _).mpr hmem₂.1)
        have hne : Key.idx x ≠ Key.idx (c.next - 1) := by simpa using hmem₂.2
        have : x ≠ c.next - 1 := fun hc => hne (hc ▸ rfl)
        omega

theorem idxSeq_map_renumDown (m : Nat) (l : List Key)
    (hb : ∀ x ∈ idxSeq l, 1 ≤ x ∧ x < m + 1) :
    idxSeq (l.map (renumKey 1 (m + 1) (-1))) = (idxSeq l).map (fun i => i - 1) := by
  induction l with
  | nil => rfl
  | cons k t ih =>
    cases k with
    | name s =>
      rw [List.map_cons]
      show idxSeq (renumKey 1 (m + 1) (-1) (Key.name s) :: _) = _
      simp only [renumKey]
      rw [idxSeq_cons_name, idxSeq_cons_name]
      exact ih (fun x hx => hb x (by rw [idxSeq_cons_name]; exact hx))
    | idx n =>
      have hn := hb n (by rw [idxSeq_cons_idx]; exact List.mem_cons_self _ _)
      have hcond : 1 ≤ n ∧ n < m + 1 := hn
      have ht : ((n : Int) + (-1)).toNat = n - 1 := by omega
      rw [List.map_cons]
      show idxSeq (renumKey 1 (m + 1) (-1) (Key.idx n) :: _) = _
      simp only [renumKey]
      rw [if_pos hcond, ht, idxSeq_cons_idx, idxSeq_cons_idx]
      rw [List.map_cons]
      congr 1
      exact ih (fun x hx => hb x (by rw [idxSeq_cons_idx]; exact List.mem_cons_of_mem _ hx))

/-- Preservation of well-formedness by shift, at every outcome. -/
theorem WF_shift (c : NANOS) (h : WF c) : WF (mresState c.shift) := by
  unfold NANOS.shift
  by_cases hl : c.locked
  · simp only [hl, if_true, mresState]
    exact h
  · by_cases hli : c.lockInd
    · simp only [hl, hli, Bool.false_eq_true, if_false, if_true, mresState]
      exact h
    · by_cases hz : c.next = 0
      · simp only [hl, hli, hz, Bool.false_eq_true, if_false, if_true, mresState]
        exact h
      · obtain ⟨m, hm⟩ : ∃ m, c.next = m + 1 := ⟨c.next - 1, by omega⟩
        simp only [hl, hli, hz, Bool.false_eq_true, if_false]
        have hnl : (Key.idx 0) ∉ c.lockedVals := by
          intro hmem
          exact hli (h.lockCons _ hmem rfl)
        have hl₂ : c.locked = false := by simpa using hl
        rw [delete_unlocked c (.idx 0) hl₂ hnl]
        have hn₁ : (c.withEN c.next
            (c.entries.filter (fun e => e.1 ≠ (Key.idx 0)))).next = m + 1 := hm
        simp only []
        rw [renumber_shift _ m hn₁]
        simp only [mresState]
        refine WF_withEN_keys _ _ _ ?_ h.lockCons
        show WFk (((c.entries.filter (fun e => e.1 ≠ (Key.idx 0))).map
            (fun e => (renumKey 1 (m + 1) (-1) e.1, e.2))).map Prod.fst) m
        rw [map_fst_keyMap, map_fst_filter_ne]
        set ks₁ := (c.entries.map Prod.fst).filter (fun x => x ≠ (Key.idx 0)) with hks₁
        have hsub : ks₁.Sublist c.keys := List.filter_sublist _
        have hwf₁ := WFk_sublist ks₁ c.keys c.next hsub h.keysWF
        have hb : ∀ x ∈ idxSeq ks₁, 1 ≤ x ∧ x < m + 1 := by
          intro x hx
          have hmem := (mem_idxSeq x _).mp hx
          have hmem₂ := List.mem_filter.mp hmem
          have hbd := h.keysWF.bound x ((mem_idxSeq x _).mpr hmem₂.1)
          have hne : Key.idx x ≠ Key.idx 0 := by simpa using hmem₂.2
          have : x ≠ 0 := fun hc => hne (hc ▸ rfl)
          omega
        refine ⟨?_, ?_, ?_⟩
        · refine List.Nodup.map_on ?_ hwf₁.nodup
          intro k₁ h₁ k₂ h₂ heq
          cases k₁ with
          | name s₁ =>
            cases k₂ with
            | name s₂ => simpa [renumKey] using heq
            | idx n₂ =>
              have hb₂ : 1 ≤ n₂ ∧ n₂ < m + 1 := hb n₂ ((mem_idxSeq n₂ _).mpr h₂)
              simp only [renumKey] at heq
              rw [if_pos hb₂] at heq
              exact absurd heq (by simp)
          | idx n₁ =>
            have hb₁ : 1 ≤ n₁ ∧ n₁ < m + 1 := hb n₁ ((mem_idxSeq n₁ _).mpr h₁)
            cases k₂ with
            | name s₂ =>
              simp only [renumKey] at heq
              rw [if_pos hb₁] at heq
              exact absurd heq (by simp)
            | idx n₂ =>
              have hb₂ : 1 ≤ n₂ ∧ n₂ < m + 1 := hb n₂ ((mem_idxSeq n₂ _).mpr h₂)
              simp only [renumKey] at heq
              rw [if_pos hb₁, if_pos hb₂] at heq
              injection heq with hv
              congr 1
              omega
        · rw [idxSeq_map_renumDown m ks₁ hb]
          rw [List.pairwise_map]
          refine List.Pairwise.imp_of_mem ?_ hwf₁.asc
          intro a b ha hb₂ hab
          have h₁ := hb a ha
          omega
        · intro x hx
          rw [idxSeq_map_renumDown m ks₁ hb] at hx
          rcases List.mem_map.mp hx with ⟨y, hy, rfl⟩
          have := hb y hy
          omega

end Nanos

namespace Nanos

theorem idxSeq_map_revKey (nx : Nat) (l : List Key)
    (hb : ∀ x ∈ idxSeq l, x < nx) :
    idxSeq (l.map (revKey ((nx : Int) - 1))) =
      (idxSeq l).map (fun i => nx - 1 - i) := by
  induction l with
  | nil => rfl
  | cons k t ih =>
    cases k with
    | name s =>
      rw [List.map_cons]
      show idxSeq (revKey ((nx : Int) - 1) (Key.name s) :: _) = _
      simp only [revKey]
      rw [idxSeq_cons_name, idxSeq_cons_name]
      exact ih (fun x hx => hb x (by rw [idxSeq_cons_name]; exact hx))
    | idx n =>
      have hn := hb n (by rw [idxSeq_cons_idx]; exact List.mem_cons_self _ _)
      have hle : (n : Int) ≤ (nx : Int) - 1 := by omega
      have ht : (((nx : Int) - 1) - n).toNat = nx - 1 - n := by omega
      rw [List.map_cons]
      show idxSeq (revKey ((nx : Int) - 1) (Key.idx n) :: _) = _
      simp only [revKey]
      rw [if_pos hle, ht, idxSeq_cons_idx, idxSeq_cons_idx, List.map_cons]
      congr 1
      exact ih (fun x hx => hb x (by rw [idxSeq_cons_idx]; exact List.mem_cons_of_mem _ hx))

/-- Preservation of well-formedness by reverse, at every outcome. -/
theorem WF_reverse (c : NANOS) (h : WF c) : WF (mresState c.reverse) := by
  unfold NANOS.reverse
  by_cases hl : c.locked
  · simp only [hl, if_true, mresState]
    exact h
  · simp only [hl, Bool.false_eq_true, if_false, mresState]
    refine ⟨?_, fun k hk => by simp [NANOS.lockedVals] at hk⟩
    show WFk ((c.entries.reverse.map
        (fun e => (revKey ((c.next : Int) - 1) e.1, e.2))).map Prod.fst) c.next
    rw [map_fst_keyMap, List.map_reverse]
    have hbrev : ∀ x ∈ idxSeq c.keys.reverse, x < c.next := by
      intro x hx
      refine h.keysWF.bound x ?_
      rw [mem_idxSeq] at hx ⊢
      exact List.mem_reverse.mp hx
    refine ⟨?_, ?_, ?_⟩
    · refine List.Nodup.map_on ?_ (List.nodup_reverse.mpr h.keysWF.nodup)
      intro k₁ h₁ k₂ h₂ heq
      have hm₁ : ∀ n, Key.idx n ∈ c.keys.reverse → n < c.next := by
        intro n hn
        exact hbrev n ((mem_idxSeq n _).mpr hn)
      cases k₁ with
      | name s₁ =>
        cases k₂ with
        | name s₂ => simpa [revKey] using heq
        | idx n₂ =>
          have hb₂ : ((n₂ : Int)) ≤ (c.next : Int) - 1 := by
            have := hm₁ n₂ h₂
            omega
          simp only [revKey] at heq
          rw [if_pos hb₂] at heq
          exact absurd heq (by simp)
      | idx n₁ =>
        have hb₁ : ((n₁ : Int)) ≤ (c.next : Int) - 1 := by
          have := hm₁ n₁ h₁
          omega
        cases k₂ with
        | name s₂ =>
          simp only [revKey] at heq
          rw [if_pos hb₁] at heq
          exact absurd heq (by simp)
        | idx n₂ =>
          have hb₂ : ((n₂ : Int)) ≤ (c.next : Int) - 1 := by
            have := hm₁ n₂ h₂
            omega
          simp only [revKey] at heq
          rw [if_pos hb₁, if_pos hb₂] at heq
          injection heq with hv
          congr 1
          omega
    · rw [idxSeq_map_revKey c.next (c.entries.map Prod.fst).reverse hbrev]
      rw [List.pairwise_map, idxSeq_reverse, List.pairwise_reverse]
      refine List.Pairwise.imp_of_mem ?_ h.keysWF.asc
      intro a b ha hb₂ hab
      have hbb := h.keysWF.bound b hb₂
      show c.next - 1 - b < c.next - 1 - a
      omega
    · intro x hx
      rw [idxSeq_map_revKey c.next (c.entries.map Prod.fst).reverse hbrev] at hx
      rcases List.mem_map.mp hx with ⟨y, hy, rfl⟩
      have := hbrev y hy
      omega

theorem idxSeq_map_renumUp (b hi : Nat) (l : List Key)
    (hb : ∀ x ∈ idxSeq l, x < hi) :
    idxSeq (l.map (renumKey 0 hi (b : Int))) = (idxSeq l).map (fun i => i + b) := by
  induction l with
  | nil => rfl
  | cons k t ih =>
    cases k with
    | name s =>
      rw [List.map_cons]
      show idxSeq (renumKey 0 hi (b : Int) (Key.name s) :: _) = _
      simp only [renumKey]
      rw [idxSeq_cons_name, idxSeq_cons_name]
      exact ih (fun x hx => hb x (by rw [idxSeq_cons_name]; exact hx))
    | idx n =>
      have hn := hb n (by rw [idxSeq_cons_idx]; exact List.mem_cons_self _ _)
      have hcond : 0 ≤ n ∧ n < hi := ⟨Nat.zero_le n, hn⟩
      have ht : ((n : Int) + (b : Int)).toNat = n + b := by omega
      rw [List.map_cons]
      show idxSeq (renumKey 0 hi (b : Int) (Key.idx n) :: _) = _
      simp only [renumKey]
      rw [if_pos hcond, ht, idxSeq_cons_idx, idxSeq_cons_idx, List.map_cons]
      congr 1
      exact ih (fun x hx => hb x (by rw [idxSeq_cons_idx]; exact List.mem_cons_of_mem _ hx))

theorem renumKey_up_idx (b hi n : Nat) (hn : n < hi) :
    renumKey 0 hi (b : Int) (.idx n) = .idx (n + b) := by
  simp only [renumKey]
  rw [if_pos ⟨Nat.zero_le n, hn⟩]
  have ht : ((n : Int) + (b : Int)).toNat = n + b := by omega
  rw [ht]

/-- Preservation of well-formedness by the renumber call of unshift. -/
theorem WF_renumber_up (c : NANOS) (b : Nat) (h : WF c) :
    WF (c.renumber 0 c.next (b : Int)) := by
  unfold NANOS.renumber
  by_cases hb0 : b = 0
  · subst hb0
    have h₁ : ¬(0 < (0 : Int)) := by decide
    have h₂ : ¬((0 : Int) < 0) := by decide
    simp only [Nat.cast_zero, h₁, h₂, if_false, ite_false, if_true, ite_true,
      reduceIte]
    rw [show c.withEN c.next c.entries = c from NANOS.eta c]
    exact h
  · have h₁ : 0 < (b : Int) := by omega
    have h₂ : ¬((b : Int) = 0) := by omega
    have h₃ : (b : Int).toNat = b := by omega
    have h₄ : c.next < c.next + b := by omega
    simp only [h₁, h₂, h₃, h₄, if_true, ite_true, if_false, ite_false]
    refine WF_withEN_keys _ _ _ ?_ h.lockCons
    rw [map_fst_keyMap]
    refine ⟨?_, ?_, ?_⟩
    · refine List.Nodup.map_on ?_ h.keysWF.nodup
      intro k₁ hk₁ k₂ hk₂ heq
      have hm : ∀ n, Key.idx n ∈ c.keys → n < c.next := by
        intro n hn
        exact h.keysWF.bound n ((mem_idxSeq n _).mpr hn)
      cases k₁ with
      | name s₁ =>
        cases k₂ with
        | name s₂ => simpa [renumKey] using heq
        | idx n₂ =>
          rw [renumKey_up_idx b c.next n₂ (hm n₂ hk₂)] at heq
          exact absurd heq (by simp [renumKey])
      | idx n₁ =>
        rw [renumKey_up_idx b c.next n₁ (hm n₁ hk₁)] at heq
        cases k₂ with
        | name s₂ => exact absurd heq (by simp [renumKey])
        | idx n₂ =>
          rw [renumKey_up_idx b c.next n₂ (hm n₂ hk₂)] at heq
          injection heq with hv
          congr 1
          omega
    · rw [idxSeq_map_renumUp b c.next (c.entries.map Prod.fst) h.keysWF.bound]
      rw [List.pairwise_map]
      refine List.Pairwise.imp_of_mem ?_ h.keysWF.asc
      intro a b₂ ha hb₂ hab
      show a + b < b₂ + b
      omega
    · intro x hx
      rw [idxSeq_map_renumUp b c.next (c.entries.map Prod.fst) h.keysWF.bound] at hx
      rcases List.mem_map.mp hx with ⟨y, hy, rfl⟩
      have := h.keysWF.bound y hy
      omega

end Nanos

namespace Nanos

theorem WF_raiseNext (c : NANOS) (m : Nat) (h : WF c) : WF (c.raiseNext m) := by
  unfold NANOS.raiseNext
  by_cases hc : c.next < m
  · rw [if_pos hc]
    refine ⟨⟨h.keysWF.nodup, h.keysWF.asc, ?_⟩, h.lockCons⟩
    intro n hn
    have := h.keysWF.bound n hn
    show n < m
    omega
  · rw [if_neg hc]
    exact h

theorem WF_pushEnts (base : Nat) (es : List (Key × Value)) :
    ∀ c, WF c → WF (eresState (pushEnts base c es)) := by
  induction es with
  | nil =>
    intro c h
    exact h
  | cons e t ih =>
    intro c h
    obtain ⟨k, v⟩ := e
    unfold pushEnts
    cases k with
    | idx n =>
      dsimp only
      rcases hs : c.set (some (.idx (base + n))) v false with e₁ | p
      · have hw := WF_set c (some (.idx (base + n))) v false h
        rw [hs] at hw
        obtain ⟨err, cs⟩ := e₁
        simpa [mresState, eresState] using hw
      · obtain ⟨a, c₁⟩ := p
        have hw := WF_set c (some (.idx (base + n))) v false h
        rw [hs] at hw
        simp only [mresState] at hw
        simp only [hs]
        exact ih c₁ hw
    | name s =>
      dsimp only
      rcases hs : c.set (some (.name s)) v false with e₁ | p
      · have hw := WF_set c (some (.name s)) v false h
        rw [hs] at hw
        obtain ⟨err, cs⟩ := e₁
        simpa [mresState, eresState] using hw
      · obtain ⟨a, c₁⟩ := p
        have hw := WF_set c (some (.name s)) v false h
        rw [hs] at hw
        simp only [mresState] at hw
        simp only [hs]
        exact ih c₁ hw

theorem WF_pushOne (c : NANOS) (v : Value) (h : WF c) :
    WF (eresState (c.pushOne v)) := by
  cases v with
  | list o =>
    show WF (eresState (match pushEnts c.next c o.entries with
      | .error e => .error e
      | .ok c₁ => .ok (c₁.raiseNext (c.next + o.next))))
    rcases hp : pushEnts c.next c o.entries with e₁ | c₁
    · have hw := WF_pushEnts c.next o.entries c h
      rw [hp] at hw
      obtain ⟨err, cs⟩ := e₁
      simpa [eresState] using hw
    · have hw := WF_pushEnts c.next o.entries c h
      rw [hp] at hw
      simp only [eresState] at hw ⊢
      exact WF_raiseNext _ _ hw
  | undef =>
    have hw := WF_set c none .undef false h
    rcases hs : c.set none .undef false with e₁ | p <;> rw [hs] at hw
    · obtain ⟨err, cs⟩ := e₁
      simpa [NANOS.pushOne, hs, mresState, eresState, Except.map] using hw
    · obtain ⟨a, c₁⟩ := p
      simpa [NANOS.pushOne, hs, mresState, eresState, Except.map] using hw
  | nul =>
    have hw := WF_set c none .nul false h
    rcases hs : c.set none .nul false with e₁ | p <;> rw [hs] at hw
    · obtain ⟨err, cs⟩ := e₁
      simpa [NANOS.pushOne, hs, mresState, eresState, Except.map] using hw
    · obtain ⟨a, c₁⟩ := p
      simpa [NANOS.pushOne, hs, mresState, eresState, Except.map] using hw
  | bool b =>
    have hw := WF_set c none (.bool b) false h
    rcases hs : c.set none (.bool b) false with e₁ | p <;> rw [hs] at hw
    · obtain ⟨err, cs⟩ := e₁
      simpa [NANOS.pushOne, hs, mresState, eresState, Except.map] using hw
    · obtain ⟨a, c₁⟩ := p
      simpa [NANOS.pushOne, hs, mresState, eresState, Except.map] using hw
  | num n =>
    have hw := WF_set c none (.num n) false h
    rcases hs : c.set none (.num n) false with e₁ | p <;> rw [hs] at hw
    · obtain ⟨err, cs⟩ := e₁
      simpa [NANOS.pushOne, hs, mresState, eresState, Except.map] using hw
    · obtain ⟨a, c₁⟩ := p
      simpa [NANOS.pushOne, hs, mresState, eresState, Except.map] using hw
  | big n =>
    have hw := WF_set c none (.big n) false h
    rcases hs : c.set none (.big n) false with e₁ | p <;> rw [hs] at hw
    · obtain ⟨err, cs⟩ := e₁
      simpa [NANOS.pushOne, hs, mresState, eresState, Except.map] using hw
    · obtain ⟨a, c₁⟩ := p
      simpa [NANOS.pushOne, hs, mresState, eresState, Except.map] using hw
  | str s =>
    have hw := WF_set c none (.str s) false h
    rcases hs : c.set none (.str s) false with e₁ | p <;> rw [hs] at hw
    · obtain ⟨err, cs⟩ := e₁
      simpa [NANOS.pushOne, hs, mresState, eresState, Except.map] using hw
    · obtain ⟨a, c₁⟩ := p
      simpa [NANOS.pushOne, hs, mresState, eresState, Except.map] using hw
  | real s =>
    have hw := WF_set c none (.real s) false h
    rcases hs : c.set none (.real s) false with e₁ | p <;> rw [hs] at hw
    · obtain ⟨err, cs⟩ := e₁
      simpa [NANOS.pushOne, hs, mresState, eresState, Except.map] using hw
    · obtain ⟨a, c₁⟩ := p
      simpa [NANOS.pushOne, hs, mresState, eresState, Except.map] using hw

theorem WF_pushAll (vs : List Value) :
    ∀ c, WF c → WF (eresState (pushAll c vs)) := by
  induction vs with
  | nil =>
    intro c h
    exact h
  | cons v t ih =>
    intro c h
    unfold pushAll
    rcases hp : c.pushOne v with e₁ | c₁
    · have hw := WF_pushOne c v h
      rw [hp] at hw
      obtain ⟨err, cs⟩ := e₁
      simpa [eresState] using hw
    · have hw := WF_pushOne c v h
      rw [hp] at hw
      simp only [eresState] at hw
      simp only [hp]
      exact ih c₁ hw

theorem WF_push (c : NANOS) (vs : List Value) (h : WF c) :
    WF (eresState (c.push vs)) := by
  unfold NANOS.push
  by_cases hl : c.locked
  · simp only [hl, if_true, eresState]
    exact h
  · simp only [hl, Bool.false_eq_true, if_false]
    exact WF_pushAll vs c h

theorem WF_fromEntsInsert (es : List (Key × Value)) :
    ∀ c, WF c → WF (eresState (fromEntsInsert c es)) := by
  induction es with
  | nil =>
    intro c h
    exact h
  | cons e t ih =>
    intro c h
    obtain ⟨k, v⟩ := e
    unfold fromEntsInsert
    rcases hs : c.set (some k.arg) v true with e₁ | p
    · have hw := WF_set c (some k.arg) v true h
      rw [hs] at hw
      obtain ⟨err, cs⟩ := e₁
      simpa [mresState, eresState] using hw
    · obtain ⟨a, c₁⟩ := p
      have hw := WF_set c (some k.arg) v true h
      rw [hs] at hw
      simp only [mresState] at hw
      simp only [hs]
      exact ih c₁ hw

theorem WF_unshiftOne (c : NANOS) (v : Value) (h : WF c) :
    WF (eresState (unshiftOne c v)) := by
  unfold unshiftOne NANOS.fromEntriesInsert
  have hr : WF (c.renumber 0 c.next ((match v with
      | .list o => o
      | v => NANOS.similar1 v).next : Int)) := WF_renumber_up c _ h
  by_cases hl : (c.renumber 0 c.next ((match v with
      | .list o => o
      | v => NANOS.similar1 v).next : Int)).locked
  · simp only [hl, if_true, eresState]
    exact hr
  · by_cases hli : (c.renumber 0 c.next ((match v with
      | .list o => o
      | v => NANOS.similar1 v).next : Int)).lockInd
    · simp only [hl, hli, Bool.false_eq_true, if_false, if_true, eresState]
      exact hr
    · simp only [hl, hli, Bool.false_eq_true, if_false]
      exact WF_fromEntsInsert _ _ hr

theorem WF_unshiftAll (vs : List Value) :
    ∀ c, WF c → WF (eresState (unshiftAll c vs)) := by
  induction vs with
  | nil =>
    intro c h
    exact h
  | cons v t ih =>
    intro c h
    unfold unshiftAll
    rcases hp : unshiftOne c v with e₁ | c₁
    · have hw := WF_unshiftOne c v h
      rw [hp] at hw
      obtain ⟨err, cs⟩ := e₁
      simpa [eresState] using hw
    · have hw := WF_unshiftOne c v h
      rw [hp] at hw
      simp only [eresState] at hw
      simp only [hp]
      exact ih c₁ hw

theorem WF_unshift (c : NANOS) (vs : List Value) (h : WF c) :
    WF (eresState (c.unshift vs)) := by
  unfold NANOS.unshift
  by_cases hl : c.locked
  · simp only [hl, if_true, eresState]
    exact h
  · by_cases hli : c.lockInd
    · simp only [hl, hli, Bool.false_eq_true, if_false, if_true, eresState]
      exact h
    · simp only [hl, hli, Bool.false_eq_true, if_false]
      exact WF_unshiftAll vs.reverse c h

end Nanos

namespace Nanos

/-- Well-formedness of the empty container. -/
theorem WF_empty : WF NANOS.empty := by
  refine ⟨⟨List.nodup_nil, List.Pairwise.nil, ?_⟩, ?_⟩
  · intro n hn
    simp [idxSeq, NANOS.empty, NANOS.keys, NANOS.entries] at hn
  · intro k hk
    simp [NANOS.empty, NANOS.lockedVals] at hk

/-- C1: the subsequence of index keys of the key list, read in list
order, is a strictly ascending sequence of non-negative integers at
every observation point: every one of set, push, unshift, delete,
shift, pop and reverse preserves well-formedness (which contains the
ascending-index property), whether it completes or throws, and any
sequence of these operations from an empty container keeps the index
subsequence strictly ascending. -/
theorem ascending_index_invariant :
    (∀ (c : NANOS) (op : Op), WF c → WF (applyOp c op)) ∧
    (∀ ops : List Op,
      (idxSeq (List.foldl applyOp NANOS.empty ops).keys).Pairwise (· < ·)) := by
  have hstep : ∀ (c : NANOS) (op : Op), WF c → WF (applyOp c op) := by
    intro c op h
    cases op with
    | setOp k v i => exact WF_set c k v i h
    | pushOp vs => exact WF_push c vs h
    | unshiftOp vs => exact WF_unshift c vs h
    | deleteOp k => exact WF_delete c k h
    | shiftOp => exact WF_shift c h
    | popOp => exact WF_pop c h
    | reverseOp => exact WF_reverse c h
  have hrun : ∀ (ops : List Op) (c : NANOS), WF c →
      WF (List.foldl applyOp c ops) := by
    intro ops
    induction ops with
    | nil => intro c h; exact h
    | cons op t ih =>
      intro c h
      exact ih _ (hstep c op h)
  exact ⟨hstep, fun ops => (hrun ops NANOS.empty WF_empty).keysWF.asc⟩

/-- C1 witness: one concrete preservation instance (setting index 5 in
append mode on a container holding a named key and indices 0, 1). -/
theorem ascending_index_invariant_witness :
    WF (applyOp (NANOS.mk 2 [(.name "a", .num 1), (.idx 0, .str "x"),
      (.idx 1, .str "y")] false false false [])
      (.setOp (some (.idx 5)) .undef false)) :=
  ascending_index_invariant.1 _ _ ⟨⟨by decide, by decide, by decide⟩, by decide⟩

end Nanos

namespace Nanos

/-- Position chosen by the append-mode while loop of set for a new
index key: the length of the longest prefix the scan skips. -/
def appendPos (ks : List Key) (n : Nat) : Nat :=
  (ks.takeWhile (skipAppend n)).length

/-- Position chosen by the insert-mode while loop of set for a new
index key: everything before the longest skippable suffix. -/
def insertPos (ks : List Key) (n : Nat) : Nat :=
  ks.length - (ks.reverse.takeWhile (skipInsert n)).length

/-- A position in the key list at which the new index key n can be
spliced while keeping the index subsequence strictly ascending. -/
def ValidPos (ks : List Key) (n p : Nat) : Prop :=
  p ≤ ks.length ∧
  (idxSeq (ks.take p ++ .idx n :: ks.drop p)).Pairwise (· < ·)

theorem takeWhile_eq_self {p : Key → Bool} {l : List Key}
    (h : ∀ k ∈ l, p k = true) : l.takeWhile p = l := by
  induction l with
  | nil => rfl
  | cons a t ih =>
    rw [List.takeWhile_cons, if_pos (h a (List.mem_cons_self _ _))]
    rw [ih (fun k hk => h k (List.mem_cons_of_mem _ hk))]

theorem all_skipAppend (ks : List Key) (nx n : Nat) (h : WFk ks nx)
    (hge : nx ≤ n) : ∀ k ∈ ks, skipAppend n k = true := by
  intro k hk
  cases k with
  | name s => rfl
  | idx m =>
    have := h.bound m ((mem_idxSeq m ks).mpr hk)
    simp [skipAppend]
    omega

theorem all_skipInsert_zero (ks : List Key) (n : Nat) (h : WFk ks 0) :
    ∀ k ∈ ks.reverse, skipInsert n k = true := by
  intro k hk
  cases k with
  | name s => rfl
  | idx m =>
    have := h.bound m ((mem_idxSeq m ks).mpr (List.mem_reverse.mp hk))
    omega

theorem applyLockNew_next (c : NANOS) (k : Key) :
    (c.applyLockNew k).next = c.next := by
  unfold NANOS.applyLockNew
  by_cases hln : c.lockNew <;> simp [hln, NANOS.next]

theorem applyLockNew_keys (c : NANOS) (k : Key) :
    (c.applyLockNew k).keys = c.keys := by
  unfold NANOS.applyLockNew
  by_cases hln : c.lockNew <;> simp [hln, NANOS.keys, NANOS.entries]

theorem withEN_next (c : NANOS) (n : Nat) (es : List (Key × Value)) :
    (c.withEN n es).next = n := rfl

theorem withEN_keys (c : NANOS) (n : Nat) (es : List (Key × Value)) :
    (c.withEN n es).keys = es.map Prod.fst := rfl

theorem take_of_append_eq (A B ks : List Key) (p : Nat) (hAB : A ++ B = ks)
    (hlen : A.length = p) : ks.take p = A := by
  subst hAB
  subst hlen
  exact List.take_left A B

theorem drop_of_append_eq (A B ks : List Key) (p : Nat) (hAB : A ++ B = ks)
    (hlen : A.length = p) : ks.drop p = B := by
  subst hAB
  subst hlen
  exact List.drop_left A B

/-- Keys of the container after setting a fresh index key: the new key
lands exactly at appendPos (append mode) or insertPos (insert mode)
of the old key list. -/
theorem set_new_idx_keys (c : NANOS) (n : Nat) (v : Value) (ins : Bool)
    (h : WF c) (hl : c.locked = false) (hnew : c.lookup (.idx n) = none) :
    ∃ c₁, c.set (some (.idx n)) v ins = .ok (some v, c₁) ∧
      c₁.next = (if c.next ≤ n then n + 1 else c.next) ∧
      c₁.keys = (if ins then
        c.keys.take (insertPos c.keys n) ++ .idx n :: c.keys.drop (insertPos c.keys n)
      else
        c.keys.take (appendPos c.keys n) ++ .idx n :: c.keys.drop (appendPos c.keys n)) := by
  have hsplitA : c.keys.takeWhile (skipAppend n) ++ c.keys.dropWhile (skipAppend n)
      = c.keys := List.takeWhile_append_dropWhile (skipAppend n) c.keys
  have hsplitI : (c.keys.reverse.dropWhile (skipInsert n)).reverse ++
      (c.keys.reverse.takeWhile (skipInsert n)).reverse = c.keys := by
    rw [← List.reverse_append, List.takeWhile_append_dropWhile, List.reverse_reverse]
  have hlenI : ((c.keys.reverse.dropWhile (skipInsert n)).reverse).length =
      insertPos c.keys n := by
    have h₁ : c.keys.reverse.takeWhile (skipInsert n) ++
        c.keys.reverse.dropWhile (skipInsert n) = c.keys.reverse :=
      List.takeWhile_append_dropWhile (skipInsert n) c.keys.reverse
    have h₂ := congrArg List.length h₁
    rw [List.length_append, List.length_reverse] at h₂
    rw [List.length_reverse, insertPos]
    omega
  by_cases hins : ins
  · subst hins
    by_cases hz : c.next = 0
    · have hres : c.set (some (.idx n)) v true =
          .ok (some v, (c.withEN (n + 1)
            ((Key.idx n, v) :: c.entries)).applyLockNew (.idx n)) := by
        unfold NANOS.set
        rw [hl]
        simp only [Bool.false_eq_true, if_false, Option.getD_some, NANOS.wrapKey,
          hnew, hz, if_true, ite_true]
        simp [Nat.zero_le n]
      refine ⟨_, hres, ?_, ?_⟩
      · rw [applyLockNew_next, withEN_next, hz, if_pos (Nat.zero_le n)]
      · rw [applyLockNew_keys, withEN_keys]
        have htw : c.keys.reverse.takeWhile (skipInsert n) = c.keys.reverse :=
          takeWhile_eq_self (all_skipInsert_zero c.keys n (hz ▸ h.keysWF))
        have hip : insertPos c.keys n = 0 := by
          rw [insertPos, htw, List.length_reverse]
          omega
        rw [if_pos rfl, hip]
        simp only [List.take_zero, List.drop_zero, List.map_cons]
        rfl
    · have hres : c.set (some (.idx n)) v true =
          .ok (some v, (c.withEN (if c.next ≤ n then n + 1 else c.next)
            (insertInsert c.entries (Key.idx n, v) n)).applyLockNew (.idx n)) := by
        unfold NANOS.set
        rw [hl]
        simp only [Bool.false_eq_true, if_false, Option.getD_some, NANOS.wrapKey,
          hnew, hz, if_true, ite_true, if_false, ite_false]
      refine ⟨_, hres, ?_, ?_⟩
      · rw [applyLockNew_next, withEN_next]
      · rw [applyLockNew_keys, withEN_keys, if_pos rfl]
        have hkeys : (insertInsert c.entries (Key.idx n, v) n).map Prod.fst =
            (c.keys.reverse.dropWhile (skipInsert n)).reverse ++
            Key.idx n :: (c.keys.reverse.takeWhile (skipInsert n)).reverse := by
          unfold insertInsert
          rw [List.map_append, List.map_cons]
          rw [List.map_reverse, List.map_reverse, map_fst_dropWhile,
            map_fst_takeWhile, List.map_reverse]
          rfl
        have htake := take_of_append_eq _ _ _ _ hsplitI hlenI
        have hdrop := drop_of_append_eq _ _ _ _ hsplitI hlenI
        rw [hkeys, htake, hdrop]
  · have hins₂ : ins = false := by simpa using hins
    subst hins₂
    by_cases hc : c.next ≤ n
    · have hres : c.set (some (.idx n)) v false =
          .ok (some v, (c.withEN (n + 1)
            (c.entries ++ [(Key.idx n, v)])).applyLockNew (.idx n)) := by
        unfold NANOS.set
        rw [hl]
        simp only [Bool.false_eq_true, if_false, Option.getD_some, NANOS.wrapKey,
          hnew, hc, if_true, ite_true, if_false, ite_false]
      refine ⟨_, hres, ?_, ?_⟩
      · rw [applyLockNew_next, withEN_next, if_pos hc]
      · rw [applyLockNew_keys, withEN_keys, if_neg (by simp)]
        have htw : c.keys.takeWhile (skipAppend n) = c.keys :=
          takeWhile_eq_self (all_skipAppend c.keys c.next n h.keysWF hc)
        have hap : appendPos c.keys n = c.keys.length := by
          rw [appendPos, htw]
        rw [hap, List.take_length, List.drop_length, List.map_append,
          List.map_singleton]
        rfl
    · have hres : c.set (some (.idx n)) v false =
          .ok (some v, (c.withEN c.next
            (insertAppend c.entries (Key.idx n, v) n)).applyLockNew (.idx n)) := by
        unfold NANOS.set
        rw [hl]
        simp only [Bool.false_eq_true, if_false, Option.getD_some, NANOS.wrapKey,
          hnew, hc, if_true, ite_true, if_false, ite_false]
      refine ⟨_, hres, ?_, ?_⟩
      · rw [applyLockNew_next, withEN_next, if_neg hc]
      · rw [applyLockNew_keys, withEN_keys, if_neg (by simp)]
        have hkeys : (insertAppend c.entries (Key.idx n, v) n).map Prod.fst =
            c.keys.takeWhile (skipAppend n) ++
            Key.idx n :: c.keys.dropWhile (skipAppend n) := by
          unfold insertAppend
          rw [List.map_append, List.map_cons, map_fst_dropWhile, map_fst_takeWhile]
          rfl
        have htake := take_of_append_eq _ _ _
          ((c.keys.takeWhile (skipAppend n)).length) hsplitA rfl
        have hdrop := drop_of_append_eq _ _ _
          ((c.keys.takeWhile (skipAppend n)).length) hsplitA rfl
        rw [hkeys,
          show appendPos c.keys n = (c.keys.takeWhile (skipAppend n)).length from rfl,
          htake, hdrop]

end Nanos

namespace Nanos

theorem take_append_split (A B ks : List Key) (p : Nat) (hAB : A ++ B = ks) :
    ks.take p = A.take p ++ B.take (p - A.length) := by
  subst hAB
  exact List.take_append_eq_append_take

theorem drop_append_split (A B ks : List Key) (p : Nat) (hAB : A ++ B = ks) :
    ks.drop p = A.drop p ++ B.drop (p - A.length) := by
  subst hAB
  exact List.drop_append_eq_append_drop

theorem insertPos_len (ks : List Key) (n : Nat) :
    ((ks.reverse.dropWhile (skipInsert n)).reverse).length = insertPos ks n := by
  have h₁ : ks.reverse.takeWhile (skipInsert n) ++
      ks.reverse.dropWhile (skipInsert n) = ks.reverse :=
    List.takeWhile_append_dropWhile (skipInsert n) ks.reverse
  have h₂ := congrArg List.length h₁
  rw [List.length_append, List.length_reverse] at h₂
  rw [List.length_reverse, insertPos]
  omega

/-- The append-mode position is a valid splice point. -/
theorem validPos_appendPos (ks : List Key) (nx n : Nat) (h : WFk ks nx)
    (hnew : Key.idx n ∉ ks) : ValidPos ks n (appendPos ks n) := by
  have hsplit := List.takeWhile_append_dropWhile (skipAppend n) ks
  have htake := take_of_append_eq _ _ _
    ((ks.takeWhile (skipAppend n)).length) hsplit rfl
  have hdrop := drop_of_append_eq _ _ _
    ((ks.takeWhile (skipAppend n)).length) hsplit rfl
  constructor
  · show appendPos ks n ≤ ks.length
    have := (List.takeWhile_sublist (l := ks) (skipAppend n)).length_le
    rw [appendPos]
    omega
  · rw [show appendPos ks n = (ks.takeWhile (skipAppend n)).length from rfl,
      htake, hdrop]
    have hac : (idxSeq (ks.takeWhile (skipAppend n) ++
        ks.dropWhile (skipAppend n))).Pairwise (· < ·) := by
      rw [hsplit]
      exact h.asc
    exact asc_middle _ _ n (idx_takeWhile_append_lt n ks)
      (idx_dropWhile_append_gt n ks hnew h.asc) hac

/-- The insert-mode position is a valid splice point. -/
theorem validPos_insertPos (ks : List Key) (nx n : Nat) (h : WFk ks nx)
    (hnew : Key.idx n ∉ ks) : ValidPos ks n (insertPos ks n) := by
  have hsplit : (ks.reverse.dropWhile (skipInsert n)).reverse ++
      (ks.reverse.takeWhile (skipInsert n)).reverse = ks := by
    rw [← List.reverse_append, List.takeWhile_append_dropWhile, List.reverse_reverse]
  have htake := take_of_append_eq _ _ _ _ hsplit (insertPos_len ks n)
  have hdrop := drop_of_append_eq _ _ _ _ hsplit (insertPos_len ks n)
  constructor
  · show insertPos ks n ≤ ks.length
    rw [insertPos]
    omega
  · rw [htake, hdrop]
    have hac : (idxSeq ((ks.reverse.dropWhile (skipInsert n)).reverse ++
        (ks.reverse.takeWhile (skipInsert n)).reverse)).Pairwise (· < ·) := by
      rw [hsplit]
      exact h.asc
    exact asc_middle _ _ n (idx_dropWhile_insert_lt n ks hnew h.asc)
      (idx_takeWhile_insert_gt n ks) hac

/-- No valid splice point lies beyond the append-mode position: it is
the latest position preserving ascending index order. -/
theorem validPos_le_appendPos (ks : List Key) (n p : Nat)
    (hv : ValidPos ks n p) : p ≤ appendPos ks n := by
  by_contra hgt
  push_neg at hgt
  have hgt₂ : (ks.takeWhile (skipAppend n)).length < p := hgt
  rcases dropWhile_cases (skipAppend n) ks with hnil | ⟨k, t, hdw, hk⟩
  · have htw : ks.takeWhile (skipAppend n) = ks := by
      have hsp := List.takeWhile_append_dropWhile (skipAppend n) ks
      rw [hnil, List.append_nil] at hsp
      exact hsp
    have hlen : appendPos ks n = ks.length := by rw [appendPos, htw]
    have := hv.1
    omega
  · obtain ⟨m, rfl⟩ : ∃ m, k = Key.idx m := by
      cases k with
      | idx m => exact ⟨m, rfl⟩
      | name s => simp [skipAppend] at hk
    have hmn : ¬(m < n) := by simpa [skipAppend] using hk
    have hsplit := List.takeWhile_append_dropWhile (skipAppend n) ks
    have htakep : Key.idx m ∈ ks.take p := by
      rw [take_append_split _ _ _ p hsplit, hdw]
      refine List.mem_append.mpr (Or.inr ?_)
      obtain ⟨q, hq⟩ : ∃ q, p - (ks.takeWhile (skipAppend n)).length = q + 1 :=
        ⟨p - (ks.takeWhile (skipAppend n)).length - 1, by omega⟩
      rw [hq, List.take_succ_cons]
      exact List.mem_cons_self _ _
    have hpw := hv.2
    rw [idxSeq_append, idxSeq_cons_idx, List.pairwise_append] at hpw
    have := hpw.2.2 m ((mem_idxSeq m _).mpr htakep) n (List.mem_cons_self _ _)
    omega

/-- No valid splice point lies before the insert-mode position: it is
the earliest position preserving ascending index order. -/
theorem insertPos_le_validPos (ks : List Key) (n p : Nat)
    (hv : ValidPos ks n p) : insertPos ks n ≤ p := by
  by_contra hgt
  push_neg at hgt
  rcases dropWhile_cases (skipInsert n) ks.reverse with hnil | ⟨k, t, hdw, hk⟩
  · have htw : ks.reverse.takeWhile (skipInsert n) = ks.reverse := by
      have hsp := List.takeWhile_append_dropWhile (skipInsert n) ks.reverse
      rw [hnil, List.append_nil] at hsp
      exact hsp
    have hz : insertPos ks n = 0 := by
      rw [insertPos, htw, List.length_reverse]
      omega
    omega
  · obtain ⟨m, rfl⟩ : ∃ m, k = Key.idx m := by
      cases k with
      | idx m => exact ⟨m, rfl⟩
      | name s => simp [skipInsert] at hk
    have hmn : ¬(n < m) := by simpa [skipInsert] using hk
    have hsplit : (Key.idx m :: t).reverse ++
        (ks.reverse.takeWhile (skipInsert n)).reverse = ks := by
      rw [← hdw, ← List.reverse_append, List.takeWhile_append_dropWhile,
        List.reverse_reverse]
    have hlenA : (Key.idx m :: t).reverse.length = insertPos ks n := by
      have := insertPos_len ks n
      rw [hdw] at this
      exact this
    have hdropB : Key.idx m ∈ ks.drop p := by
      rw [drop_append_split _ _ _ p hsplit]
      refine List.mem_append.mpr (Or.inl ?_)
      rw [List.reverse_cons]
      have hp : p ≤ t.reverse.length := by
        rw [List.reverse_cons] at hlenA
        rw [List.length_append] at hlenA
        simp at hlenA
        rw [List.length_reverse]
        omega
      rw [drop_append_split t.reverse [Key.idx m] _ p rfl]
      refine List.mem_append.mpr (Or.inr ?_)
      have hz : p - t.reverse.length = 0 := by omega
      rw [hz]
      exact List.mem_cons_self _ _
    have hpw := hv.2
    rw [idxSeq_append, idxSeq_cons_idx, List.pairwise_append] at hpw
    have := List.rel_of_pairwise_cons hpw.2.1 ((mem_idxSeq m _).mpr hdropB)
    omega

end Nanos

namespace Nanos

/-- C5: with key list a, 1, b, 3, c, setting the new index key 2 in
append mode places it immediately after b and before 3, and in insert
mode immediately after 1 and before b; in general set places a fresh
index key at the latest (append mode) or earliest (insert mode)
position of the key list that preserves the ascending order of index
keys. -/
theorem set_placement :
    ((mresState ((NANOS.mk 4 [(.name "a", .num 0), (.idx 1, .num 1),
        (.name "b", .num 2), (.idx 3, .num 3), (.name "c", .num 4)]
        false false false []).set (some (.idx 2)) (.num 9) false)).keys =
      [.name "a", .idx 1, .name "b", .idx 2, .idx 3, .name "c"]) ∧
    ((mresState ((NANOS.mk 4 [(.name "a", .num 0), (.idx 1, .num 1),
        (.name "b", .num 2), (.idx 3, .num 3), (.name "c", .num 4)]
        false false false []).set (some (.idx 2)) (.num 9) true)).keys =
      [.name "a", .idx 1, .idx 2, .name "b", .idx 3, .name "c"]) ∧
    (∀ (c : NANOS) (n : Nat) (v : Value) (ins : Bool), WF c →
      c.locked = false → c.lookup (.idx n) = none →
      ∃ c₁, c.set (some (.idx n)) v ins = .ok (some v, c₁) ∧
        c₁.keys =
          c.keys.take (if ins then insertPos c.keys n else appendPos c.keys n) ++
          .idx n ::
          c.keys.drop (if ins then insertPos c.keys n else appendPos c.keys n) ∧
        ValidPos c.keys n (if ins then insertPos c.keys n else appendPos c.keys n) ∧
        (∀ p, ValidPos c.keys n p →
          (if ins then insertPos c.keys n ≤ p else p ≤ appendPos c.keys n))) := by
  refine ⟨by decide, by decide, ?_⟩
  intro c n v ins h hl hnew
  have hnotin : Key.idx n ∉ c.keys := (assocLookup_eq_none _ _).mp hnew
  obtain ⟨c₁, hset, _, hkeys⟩ := set_new_idx_keys c n v ins h hl hnew
  refine ⟨c₁, hset, ?_, ?_, ?_⟩
  · by_cases hins : ins
    · subst hins
      rw [hkeys]
      simp
    · have h₂ : ins = false := by simpa using hins
      subst h₂
      rw [hkeys]
      simp
  · by_cases hins : ins
    · subst hins
      simp only [if_true, ite_true]
      exact validPos_insertPos c.keys c.next n h.keysWF hnotin
    · have h₂ : ins = false := by simpa using hins
      subst h₂
      simp only [Bool.false_eq_true, if_false, ite_false]
      exact validPos_appendPos c.keys c.next n h.keysWF hnotin
  · intro p hp
    by_cases hins : ins
    · subst hins
      simp only [if_true, ite_true]
      exact insertPos_le_validPos c.keys n p hp
    · have h₂ : ins = false := by simpa using hins
      subst h₂
      simp only [Bool.false_eq_true, if_false, ite_false]
      exact validPos_le_appendPos c.keys n p hp

/-- C5 witness: the general clause applied at the example container,
append mode. -/
theorem set_placement_witness :
    ∃ c₁, (NANOS.mk 4 [(.name "a", .num 0), (.idx 1, .num 1),
        (.name "b", .num 2), (.idx 3, .num 3), (.name "c", .num 4)]
        false false false []).set (some (.idx 2)) (.num 9) false =
      .ok (some (.num 9), c₁) ∧
      c₁.keys =
        (NANOS.mk 4 [(.name "a", .num 0), (.idx 1, .num 1),
          (.name "b", .num 2), (.idx 3, .num 3), (.name "c", .num 4)]
          false false false []).keys.take (if false then
            insertPos (NANOS.mk 4 [(.name "a", .num 0), (.idx 1, .num 1),
              (.name "b", .num 2), (.idx 3, .num 3), (.name "c", .num 4)]
              false false false []).keys 2
          else appendPos (NANOS.mk 4 [(.name "a", .num 0), (.idx 1, .num 1),
              (.name "b", .num 2), (.idx 3, .num 3), (.name "c", .num 4)]
              false false false []).keys 2) ++
        .idx 2 ::
        (NANOS.mk 4 [(.name "a", .num 0), (.idx 1, .num 1),
          (.name "b", .num 2), (.idx 3, .num 3), (.name "c", .num 4)]
          false false false []).keys.drop (if false then
            insertPos (NANOS.mk 4 [(.name "a", .num 0), (.idx 1, .num 1),
              (.name "b", .num 2), (.idx 3, .num 3), (.name "c", .num 4)]
              false false false []).keys 2
          else appendPos (NANOS.mk 4 [(.name "a", .num 0), (.idx 1, .num 1),
              (.name "b", .num 2), (.idx 3, .num 3), (.name "c", .num 4)]
              false false false []).keys 2) ∧
      ValidPos (NANOS.mk 4 [(.name "a", .num 0), (.idx 1, .num 1),
        (.name "b", .num 2), (.idx 3, .num 3), (.name "c", .num 4)]
        false false false []).keys 2 (if false then
          insertPos (NANOS.mk 4 [(.name "a", .num 0), (.idx 1, .num 1),
            (.name "b", .num 2), (.idx 3, .num 3), (.name "c", .num 4)]
            false false false []).keys 2
        else appendPos (NANOS.mk 4 [(.name "a", .num 0), (.idx 1, .num 1),
            (.name "b", .num 2), (.idx 3, .num 3), (.name "c", .num 4)]
            false false false []).keys 2) ∧
      (∀ p, ValidPos (NANOS.mk 4 [(.name "a", .num 0), (.idx 1, .num 1),
          (.name "b", .num 2), (.idx 3, .num 3), (.name "c", .num 4)]
          false false false []).keys 2 p →
        (if false then
          insertPos (NANOS.mk 4 [(.name "a", .num 0), (.idx 1, .num 1),
            (.name "b", .num 2), (.idx 3, .num 3), (.name "c", .num 4)]
            false false false []).keys 2 ≤ p
        else p ≤ appendPos (NANOS.mk 4 [(.name "a", .num 0), (.idx 1, .num 1),
            (.name "b", .num 2), (.idx 3, .num 3), (.name "c", .num 4)]
            false false false []).keys 2)) :=
  set_placement.2.2 _ 2 (.num 9) false
    ⟨⟨by decide, by decide, by decide⟩, by decide⟩ rfl rfl

end Nanos

namespace Nanos

/-- Live iteration of forEach.  The source iterates with for .. of over
this._keys itself; a callback that adds keys via set splices into
that same array, so the ongoing iteration observes the change.  The
model advances an index over the key list of the current state,
passing the callback the stored value, the key and the container and
threading the returned container (a state-passing rendering of the
in-place mutation).  Fuel bounds the loop because a callback that
keeps adding keys keeps the iteration alive, exactly as in the
source. -/
def forEachLive (f : Value → Key → NANOS → NANOS) :
    Nat → Nat → NANOS → List Key → (NANOS × List Key)
  | 0, _, c, acc => (c, acc)
  | fuel + 1, i, c, acc =>
    match c.keys.get? i with
    | none => (c, acc)
    | some k =>
      forEachLive f fuel (i + 1) (f ((c.lookup k).getD .undef) k c) (acc ++ [k])

/-- The find scan over a key list: first entry whose value satisfies
the predicate, reading values from the storage captured at entry. -/
def findGo (c : NANOS) (f : Value → Key → Bool) : List Key → Option (Key × Value)
  | [] => none
  | k :: t =>
    let v := (c.lookup k).getD .undef
    if f v k then some (k, v) else findGo c f t

/-- The find method (callback restricted to a pure predicate). -/
def NANOS.find (c : NANOS) (f : Value → Key → Bool) : Option (Key × Value) :=
  findGo c f c.keys

/-- C7 counterexample: iterating a one-entry container with a callback
that sets a new named key.  The live iteration visits the key added
during the traversal, so the sequence of visited keys differs from
the key sequence at the start of the call. -/
theorem forEach_live_cx :
    (forEachLive
      (fun _ _ c => mresState (c.set (some (.name "b")) (.num 2) false))
      4 0 (NANOS.mk 0 [(.name "a", .num 1)] false false false []) []).2 =
      [.name "a", .name "b"] ∧
    (NANOS.mk 0 [(.name "a", .num 1)] false false false []).keys =
      [.name "a"] :=
  ⟨rfl, rfl⟩

theorem forEachLive_pure_aux (f : Value → Key → NANOS → NANOS)
    (hf : ∀ v k c₁, f v k c₁ = c₁) (c : NANOS) :
    ∀ (fuel i : Nat) (acc : List Key), c.keys.length - i ≤ fuel →
      forEachLive f fuel i c acc = (c, acc ++ c.keys.drop i) := by
  intro fuel
  induction fuel with
  | zero =>
    intro i acc hle
    have hge : c.keys.length ≤ i := by omega
    rw [List.drop_eq_nil_of_le hge, List.append_nil]
    rfl
  | succ fuel ih =>
    intro i acc hle
    show (match c.keys.get? i with
      | none => (c, acc)
      | some k =>
        forEachLive f fuel (i + 1) (f ((c.lookup k).getD .undef) k c)
          (acc ++ [k])) = (c, acc ++ c.keys.drop i)
    rcases hget : c.keys.get? i with _ | k
    · have hge : c.keys.length ≤ i := by
        by_contra hlt
        push_neg at hlt
        rw [List.get?_eq_get hlt] at hget
        simp at hget
      rw [List.drop_eq_nil_of_le hge, List.append_nil]
    · have hlt : i < c.keys.length := by
        by_contra hge
        push_neg at hge
        rw [List.get?_eq_none.mpr hge] at hget
        simp at hget
      dsimp only
      rw [hf]
      rw [ih (i + 1) (acc ++ [k]) (by omega)]
      have hdrop : c.keys.drop i = k :: c.keys.drop (i + 1) := by
        rw [List.drop_eq_getElem_cons hlt]
        rw [List.get?_eq_get hlt] at hget
        simp at hget
        simp [hget]
      rw [hdrop, List.append_assoc]
      rfl

/-- C7 (amended): forEach and find iterate the live key list, not a
snapshot.  For a callback that does not mutate the container, the
sequence of keys the callback is invoked on is exactly the key
sequence at the start of the call; a callback that adds keys via set
during iteration extends the live key array and the newly added keys
are visited as well (shown by the counterexample).  The find scan
returns the first key of the starting key order whose value satisfies
the predicate. -/
theorem forEach_find_live :
    (∀ (f : Value → Key → NANOS → NANOS), (∀ v k c₁, f v k c₁ = c₁) →
      ∀ (c : NANOS) (fuel : Nat), c.keys.length ≤ fuel →
        forEachLive f fuel 0 c [] = (c, c.keys)) ∧
    (∀ (c : NANOS) (f : Value → Key → Bool),
      c.find f = ((c.keys.filter
        (fun k => f ((c.lookup k).getD .undef) k)).head?).map
        (fun k => (k, (c.lookup k).getD .undef))) := by
  constructor
  · intro f hf c fuel hfuel
    have := forEachLive_pure_aux f hf c fuel 0 [] (by omega)
    simpa using this
  · intro c f
    show findGo c f c.keys = _
    induction c.keys with
    | nil => rfl
    | cons k t ih =>
      show (let v := (c.lookup k).getD .undef
        if f v k then some (k, v) else findGo c f t) = _
      by_cases hfk : f ((c.lookup k).getD .undef) k
      · simp [hfk, List.filter_cons]
      · simp only [hfk, if_false, ite_false, Bool.false_eq_true]
        rw [ih]
        simp [List.filter_cons, hfk]

/-- C7 witness: the pure-callback clause at a concrete container. -/
theorem forEach_find_live_witness :
    forEachLive (fun _ _ c₁ => c₁) 3 0
      (NANOS.mk 1 [(.idx 0, .str "x"), (.name "k", .num 7)] false false false [])
      [] =
    ((NANOS.mk 1 [(.idx 0, .str "x"), (.name "k", .num 7)] false false false []),
      [.idx 0, .name "k"]) :=
  forEach_find_live.1 (fun _ _ c₁ => c₁) (fun _ _ _ => rfl) _ 3 (by decide)

end Nanos

namespace Nanos

/-! SLID serializer (toSLID with default options: compact and redact
off) and parser (parseSLID with qj off), embedded over List Char. -/

/-- Single-quote character (code 39). -/
def sqChar : Char := Char.ofNat 39

/-- Double-quote character (code 34). -/
def dqChar : Char := Char.ofNat 34

/-- Backslash character (code 92). -/
def bsChar : Char := Char.ofNat 92

/-- Lower-case hexadecimal digit. -/
def hexChar (n : Nat) : Char :=
  if n < 10 then Char.ofNat (48 + n) else Char.ofNat (87 + n)

/-- Escape of one character, after escapeJSString: control characters,
quotes, backslash and codes at and above 0x7f are escaped; the named
escapes first, then hexadecimal forms by code size.  Codes are
unicode scalars here; the astral-plane surrogate-pair split of JS
strings is outside the embedding. -/
def escapeChar (c : Char) : List Char :=
  let cc := c.toNat
  if cc < 0x20 ∨ c = sqChar ∨ c = dqChar ∨ c = bsChar ∨ 0x7f ≤ cc then
    if cc = 8 then [bsChar, 'b']
    else if cc = 10 then [bsChar, 'n']
    else if cc = 13 then [bsChar, 'r']
    else if cc = 9 then [bsChar, 't']
    else if c = sqChar then [bsChar, sqChar]
    else if c = dqChar then [bsChar, dqChar]
    else if c = bsChar then [bsChar, bsChar]
    else if cc < 0x10 then [bsChar, 'x', '0', hexChar cc]
    else if cc < 0x100 then [bsChar, 'x', hexChar (cc / 16), hexChar (cc % 16)]
    else if cc < 0x1000 then
      [bsChar, 'u', '0', hexChar (cc / 256), hexChar (cc / 16 % 16), hexChar (cc % 16)]
    else
      [bsChar, 'u', hexChar (cc / 4096), hexChar (cc / 256 % 16),
        hexChar (cc / 16 % 16), hexChar (cc % 16)]
  else [c]

/-- The escapeJSString function of the vendored escape module. -/
def escapeJSString (s : String) : String :=
  String.mk (s.data.foldr (fun c acc => escapeChar c ++ acc) [])

/-- Replacement of the two-character sequence paren-bracket by the
escaped paren-backslash-bracket form (the replace of both the
per-string escape helper and the final toSLID step). -/
def escapeBoundary : List Char → List Char
  | ')' :: ']' :: rest => ')' :: bsChar :: ']' :: escapeBoundary rest
  | c :: rest => c :: escapeBoundary rest
  | [] => []

/-- First character class of the bare word-literal test of toSLID. -/
def isWordStart (c : Char) : Bool :=
  (65 ≤ c.toNat && c.toNat ≤ 90) || (97 ≤ c.toNat && c.toNat ≤ 122) ||
  c ∈ ['~', '!', '#', '$', '%', '^', '&', '*', '(', ')', '+', '.', ',',
    ':', ';', '<', '>', '?', '_'] ||
  c = Char.ofNat 123 || c = Char.ofNat 125

/-- Continuation character class of the bare word-literal test. -/
def isWordRest (c : Char) : Bool :=
  isWordStart c || (48 ≤ c.toNat && c.toNat ≤ 57) || c = '@' || c = '-'

/-- The word-literal test of toSLID: such strings are emitted bare. -/
def isWordLiteral (s : String) : Bool :=
  match s.data with
  | [] => false
  | c :: rest => isWordStart c && rest.all isWordRest

mutual
/-- Rendering of one value (valueToStr of toSLID, default options).
Bigints carry a trailing n; strings are bare word literals or
single-quoted with escaping; containers recurse. -/
def valueToStr : Value → String
  | .bool false => "@f"
  | .nul => "@n"
  | .bool true => "@t"
  | .undef => "@u"
  | .big n => toString n ++ "n"
  | .num n => toString n
  | .real s => s
  | .str s =>
    if isWordLiteral s then s
    else String.mk (sqChar :: escapeBoundary (escapeJSString s).data ++ [sqChar])
  | .list (.mk _ es _ _ _ _) => "[" ++ String.intercalate " " (itemsGo 0 es) ++ "]"

/-- Item list of one container (itemsToStr of toSLID, default
options): index entries matching the expected running index are bare,
other index entries carry an explicit N= prefix which resets the
expectation; named entries render as key=value.  No token is emitted
for trailing holes. -/
def itemsGo : Nat → List (Key × Value) → List String
  | _, [] => []
  | expInd, (.idx ind, v) :: rest =>
    ((if ind = expInd then "" else toString ind ++ "=") ++ valueToStr v) ::
      itemsGo (ind + 1) rest
  | expInd, (.name s, v) :: rest =>
    (valueToStr (.str s) ++ "=" ++ valueToStr v) :: itemsGo expInd rest
end

/-- Space-joined item list of a container (itemsToStr of toSLID). -/
def itemsToStr (c : NANOS) : String :=
  String.intercalate " " (itemsGo 0 c.entries)

/-- The toSLID method with default options. -/
def NANOS.toSLID (c : NANOS) : String :=
  "[(" ++ String.mk (escapeBoundary (itemsToStr c).data) ++ ")]"

end Nanos

namespace Nanos

/-- JS whitespace class (the \s regex class over the characters met
here: ASCII whitespace plus the explicit unicode space codes). -/
def isJsSpace (c : Char) : Bool :=
  c.toNat ∈ [9, 10, 11, 12, 13, 32, 0xa0, 0x1680, 0x2028, 0x2029, 0x202f,
    0x205f, 0x3000, 0xfeff] ||
  (0x2000 ≤ c.toNat && c.toNat ≤ 0x200a)

/-- Decimal digit class. -/
def isDigitC (c : Char) : Bool := 48 ≤ c.toNat && c.toNat ≤ 57

/-- ASCII letter or digit (the negative lookahead class of the numeric
token patterns). -/
def isAlnumC (c : Char) : Bool :=
  isDigitC c || (65 ≤ c.toNat && c.toNat ≤ 90) || (97 ≤ c.toNat && c.toNat ≤ 122)

/-- Binary digit class. -/
def isBinC (c : Char) : Bool := c = '0' || c = '1'

/-- Octal digit class. -/
def isOctC (c : Char) : Bool := 48 ≤ c.toNat && c.toNat ≤ 55

/-- Hexadecimal digit class. -/
def isHexC (c : Char) : Bool :=
  isDigitC c || (97 ≤ c.toNat && c.toNat ≤ 102) || (65 ≤ c.toNat && c.toNat ≤ 70)

/-- Split at the first occurrence of a (nonempty) pattern: the part
before the first match and the part after it, or none when the
pattern does not occur.  Models positioned regex search for a literal. -/
def splitFirst (pat : List Char) : List Char → Option (List Char × List Char)
  | [] => none
  | c :: rest =>
    if List.isPrefixOf pat (c :: rest) then some ([], (c :: rest).drop pat.length)
    else
      match splitFirst pat rest with
      | some (pre, post) => some (c :: pre, post)
      | none => none

/-- The replace of the escaped boundary sequence paren-backslash-bracket
back to paren-bracket, applied to the matched interior. -/
def unescapeBoundary : List Char → List Char
  | ')' :: c :: ']' :: rest =>
    if c = bsChar then ')' :: ']' :: unescapeBoundary rest
    else ')' :: unescapeBoundary (c :: ']' :: rest)
  | c :: rest => c :: unescapeBoundary rest
  | [] => []

/-- mlc token: a multi-line comment, lazily closed at the first
star-slash. -/
def matchComment : List Char → Option (List Char × List Char)
  | '/' :: '*' :: rest =>
    (match splitFirst ['*', '/'] rest with
     | some (mid, post) => some ('/' :: '*' :: (mid ++ ['*', '/']), post)
     | none => none)
  | _ => none

/-- Index of the first quote not immediately preceded by a backslash
(the closing quote of the greedy quoted-string match when present). -/
def firstBareAux (q : Char) (prevBs : Bool) : List Char → Option Nat
  | [] => none
  | c :: rest =>
    if c = q && !prevBs then some 0
    else (firstBareAux q (decide (c = bsChar)) rest).map (· + 1)

/-- Index of the last occurrence of a character. -/
def lastIdx (q : Char) : List Char → Option Nat
  | [] => none
  | c :: rest =>
    match lastIdx q rest with
    | some i => some (i + 1)
    | none => if c = q then some 0 else none

/-- sqs / dqs token: quote, then pairs backslash-quote or characters
other than the quote, greedily, then the quote.  The greedy match
closes at the first bare (unescaped) quote and, when every further
quote is escaped, at the last quote. -/
def matchQuoted (q : Char) : List Char → Option (List Char × List Char)
  | [] => none
  | c :: rest =>
    if c = q then
      match firstBareAux q false rest with
      | some i => some (q :: rest.take i ++ [q], rest.drop (i + 1))
      | none =>
        match lastIdx q rest with
        | some i => some (q :: rest.take i ++ [q], rest.drop (i + 1))
        | none => none
    else none

/-- The negative lookahead shared by the numeric tokens: not followed
by an ASCII letter or digit. -/
def okAfter : List Char → Bool
  | [] => true
  | c :: _ => !isAlnumC c

/-- Greedy split into a leading digit run and the rest. -/
def spanDigits (s : List Char) : List Char × List Char :=
  (s.takeWhile isDigitC, s.dropWhile isDigitC)

/-- Optional sign, split off. -/
def spanSign : List Char → List Char × List Char
  | c :: r => if c = '+' || c = '-' then ([c], r) else ([], c :: r)
  | [] => ([], [])

/-- The optional fraction part of the flt pattern (dot then digits). -/
def matchDotPart : List Char → Option (List Char × List Char)
  | c :: rest =>
    if c = '.' then
      (match spanDigits rest with
       | ([], _) => none
       | (d, r) => some ('.' :: d, r))
    else none
  | [] => none

/-- The optional exponent part of the flt pattern. -/
def matchExpPart : List Char → Option (List Char × List Char)
  | c :: rest =>
    if c = 'e' || c = 'E' then
      let (sgn, r1) := spanSign rest
      (match spanDigits r1 with
       | ([], _) => none
       | (d, r2) => some (c :: sgn ++ d, r2))
    else none
  | [] => none

/-- flt token: optional sign, digits, optional fraction, optional
exponent, then the alphanumeric lookahead.  The regex backtracking
order tries the variants fraction-and-exponent, fraction only,
exponent only, digits only, and commits to the first one whose
following character passes the lookahead; digit-run reductions never
help the lookahead and are dropped. -/
def matchFlt (s : List Char) : Option (List Char × List Char) :=
  let (sgn, r0) := spanSign s
  match spanDigits r0 with
  | ([], _) => none
  | (d1, r1) =>
    let cand : List (List Char × List Char) :=
      (match matchDotPart r1 with
       | some (dt, r2) =>
         (match matchExpPart r2 with
          | some (ex, r3) => [(dt ++ ex, r3)]
          | none => []) ++ [(dt, r2)]
       | none => []) ++
      (match matchExpPart r1 with
       | some (ex, r2) => [(ex, r2)]
       | none => []) ++ [([], r1)]
    match cand.find? (fun p => okAfter p.2) with
    | some (mid, rest) => some (sgn ++ d1 ++ mid, rest)
    | none => none

/-- One radix alternative of the int pattern: 0, the radix letter in
either case, then a nonempty greedy run of radix digits. -/
def matchRadix (lo up : Char) (dig : Char → Bool) : List Char → Option (List Char × List Char)
  | c :: c2 :: rest =>
    if c = '0' && (c2 = lo || c2 = up) then
      (match rest.takeWhile dig, rest.dropWhile dig with
       | [], _ => none
       | d, r => some (c :: c2 :: d, r))
    else none
  | _ => none

/-- The n-suffixed and plain variants of an int body, n-suffixed
first (greedy n?), paired with their rests. -/
def intVariants : List Char × List Char → List (List Char × List Char)
  | (body, r) =>
    (match r with
     | c :: r2 => if c = 'n' then [(body ++ ['n'], r2)] else []
     | [] => []) ++ [(body, r)]

/-- int token: optional sign, then one of the binary, octal,
hexadecimal or decimal digit-run alternatives in that order, an
optional n suffix, and the alphanumeric lookahead.  The first
variant in backtracking order whose following character passes the
lookahead is committed; digit-run reductions always leave a digit of
the same class next and never pass the lookahead. -/
def matchInt (s : List Char) : Option (List Char × List Char) :=
  let (sgn, r0) := spanSign s
  let cand : List (List Char × List Char) :=
    (match matchRadix 'b' 'B' isBinC r0 with
     | some br => intVariants br
     | none => []) ++
    (match matchRadix 'o' 'O' isOctC r0 with
     | some br => intVariants br
     | none => []) ++
    (match matchRadix 'x' 'X' isHexC r0 with
     | some br => intVariants br
     | none => []) ++
    (match spanDigits r0 with
     | ([], _) => []
     | (d, r) => intVariants (d, r))
  match cand.find? (fun p => okAfter p.2) with
  | some (body, rest) => some (sgn ++ body, rest)
  | none => none

/-- stok token: a single bracket or equals character. -/
def matchStok : List Char → Option (List Char × List Char)
  | c :: rest =>
    if c = '[' || c = '=' || c = ']' then some ([c], rest) else none
  | [] => none

/-- spc token: a nonempty greedy whitespace run. -/
def matchSpc (s : List Char) : Option (List Char × List Char) :=
  match s.takeWhile isJsSpace, s.dropWhile isJsSpace with
  | [], _ => none
  | d, r => some (d, r)

/-- Character admissible in an oth token with no condition: everything
except quotes, brackets, equals, whitespace and slash. -/
def isOthPlain (c : Char) : Bool :=
  !(c = sqChar || c = dqChar || c = '[' || c = '=' || c = ']' ||
    isJsSpace c || c = '/')

/-- Greedy run of oth characters: plain characters, or a slash not
followed by a star. -/
def othTake : List Char → List Char × List Char
  | [] => ([], [])
  | c :: rest =>
    if c = '/' then
      match rest with
      | '*' :: _ => ([], c :: rest)
      | _ => (match othTake rest with | (t, r) => (c :: t, r))
    else if isOthPlain c then
      (match othTake rest with | (t, r) => (c :: t, r))
    else ([], c :: rest)

/-- oth token: a nonempty greedy run of other characters. -/
def matchOth (s : List Char) : Option (List Char × List Char) :=
  match othTake s with
  | ([], _) => none
  | (t, r) => some (t, r)

/-- One tokenizer step: the alternatives of the token regex in
alternation order at the current position. -/
def matchToken (s : List Char) : Option (List Char × List Char) :=
  (matchComment s).orElse fun _ =>
  (matchFlt s).orElse fun _ =>
  (matchInt s).orElse fun _ =>
  (matchQuoted sqChar s).orElse fun _ =>
  (matchQuoted dqChar s).orElse fun _ =>
  (matchStok s).orElse fun _ =>
  (matchSpc s).orElse fun _ =>
  matchOth s

/-- Split of the input into captured tokens and unmatched gap
segments, scanning left to right (the split on the token regex).
Empty gap segments are not emitted; the later filter drops them in
the source.  Fuel bounds the scan; every step consumes a character. -/
def tokenizeGo : Nat → List Char → List Char → List String
  | 0, _, gap => if gap = [] then [] else [String.mk gap.reverse]
  | fuel + 1, s, gap =>
    match s with
    | [] => if gap = [] then [] else [String.mk gap.reverse]
    | c :: rest =>
      match matchToken s with
      | some (tok, after) =>
        (if gap = [] then [] else [String.mk gap.reverse]) ++
          String.mk tok :: tokenizeGo fuel after []
      | none => tokenizeGo fuel rest (c :: gap)

/-- Line terminators (the characters the dot of the comment filter
pattern does not match). -/
def isLineTerm (c : Char) : Bool :=
  c.toNat = 10 || c.toNat = 13 || c.toNat = 0x2028 || c.toNat = 0x2029

/-- Full-string match of the comment form of the filter: slash-star,
any characters with no line terminator, star-slash. -/
def isCommentForm (l : List Char) : Bool :=
  decide (4 ≤ l.length) && decide (l.take 2 = ['/', '*']) &&
  decide (l.drop (l.length - 2) = ['*', '/']) &&
  ((l.drop 2).take (l.length - 4)).all (fun c => !isLineTerm c)

/-- The token filter: all-whitespace segments (including empty ones)
and single-line comment tokens are dropped. -/
def keepTok (t : String) : Bool :=
  !(t.data.all isJsSpace || isCommentForm t.data)

/-- The token list of the SLID interior: split on the token regex,
then the filter. -/
def tokenize (s : List Char) : List String :=
  (tokenizeGo (s.length + 1) s []).filter keepTok

end Nanos

namespace Nanos

/-- Value of a single named escape character, when there is one. -/
def unescMap (c : Char) : Option Char :=
  if c = bsChar then some bsChar
  else if c = 'b' then some (Char.ofNat 8)
  else if c = 'n' then some (Char.ofNat 10)
  else if c = 'r' then some (Char.ofNat 13)
  else if c = 't' then some (Char.ofNat 9)
  else if c = sqChar then some sqChar
  else if c = dqChar then some dqChar
  else none

/-- Numeric value of a hexadecimal digit (0 for other characters;
callers guard with isHexC). -/
def hexVal (c : Char) : Nat :=
  if isDigitC c then c.toNat - 48
  else if 97 ≤ c.toNat && c.toNat ≤ 102 then c.toNat - 87
  else if 65 ≤ c.toNat && c.toNat ≤ 70 then c.toNat - 55
  else 0

/-- Value of a digit run in a base (digits assumed valid for the
base; hexVal covers the decimal, binary and octal digits as well). -/
def digitsVal (base : Nat) (ds : List Char) : Nat :=
  ds.foldl (fun a c => a * base + hexVal c) 0

/-- Escape recognition after a backslash: the replacement character
and the number of characters the escape consumes after the
backslash (1 for named escapes, 3 for hexadecimal, 5 for unicode);
none when no complete escape starts here. -/
def unescStep : List Char → Option (Char × Nat)
  | [] => none
  | e :: r2 =>
    match unescMap e with
    | some u => some (u, 1)
    | none =>
      if e = 'x' then
        match r2 with
        | h1 :: h2 :: _ =>
          if isHexC h1 && isHexC h2 then
            some (Char.ofNat (digitsVal 16 [h1, h2]), 3)
          else none
        | _ => none
      else if e = 'u' then
        match r2 with
        | h1 :: h2 :: h3 :: h4 :: _ =>
          if isHexC h1 && isHexC h2 && isHexC h3 && isHexC h4 then
            some (Char.ofNat (digitsVal 16 [h1, h2, h3, h4]), 5)
          else none
        | _ => none
      else none

/-- The unescapeJSString function of the vendored escape module:
named two-character escapes, hexadecimal two-digit and unicode
four-digit escapes are replaced left to right; a backslash starting
no complete escape is kept. -/
def unescapeJS : List Char → List Char
  | [] => []
  | c :: rest =>
    if c = bsChar then
      match unescStep rest with
      | some (u, n) => u :: unescapeJS (rest.drop n)
      | none => c :: unescapeJS rest
    else c :: unescapeJS rest
termination_by l => l.length
decreasing_by all_goals (simp_wf <;> omega)

/-- Anchored full-string match of the flt pattern: some backtracking
variant consumes the whole string. -/
def fullFlt (s : List Char) : Bool :=
  let (_, r0) := spanSign s
  match spanDigits r0 with
  | ([], _) => false
  | (_, r1) =>
    decide (r1 = []) ||
    (match matchDotPart r1 with
     | some (_, r2) =>
       decide (r2 = []) ||
       (match matchExpPart r2 with
        | some (_, r3) => decide (r3 = [])
        | none => false)
     | none => false) ||
    (match matchExpPart r1 with
     | some (_, r2) => decide (r2 = [])
     | none => false)

/-- Anchored full-string match of the int pattern. -/
def fullInt (s : List Char) : Bool :=
  let (_, r0) := spanSign s
  let fullBody : Option (List Char × List Char) → Bool := fun br =>
    match br with
    | some (_, r) => decide (r = []) || decide (r = ['n'])
    | none => false
  fullBody (matchRadix 'b' 'B' isBinC r0) ||
  fullBody (matchRadix 'o' 'O' isOctC r0) ||
  fullBody (matchRadix 'x' 'X' isHexC r0) ||
  (match spanDigits r0 with
   | ([], _) => false
   | (_, r) => decide (r = []) || decide (r = ['n']))

/-- The slidNum test: anchored flt or int form. -/
def slidNumTest (t : String) : Bool := fullFlt t.data || fullInt t.data

/-- Parser errors: the two SyntaxError messages of parseSLID (missing
boundary, malformed), the unmatched-quote SyntaxError, a crash for
uncaught exceptions of the underlying runtime (BigInt of a signed
radix literal, shift of an empty token list), and fuel exhaustion of
the embedding (never reached from parseSLID, whose fuel dominates
twice the token count; a fuel unit is spent per item and per open
bracket, and every such step consumes a token). -/
inductive PErr where
  | boundary
  | malformed
  | unterminated
  | crash
  | fuel
deriving DecidableEq

/-- Sign applied to a magnitude. -/
def signVal (sgn : List Char) (m : Nat) : Int :=
  if sgn = ['-'] then -(m : Int) else (m : Int)

/-- The StringToBigInt conversion as used on numeric tokens with the
n suffix removed: an optional sign is admitted only on a decimal
digit run; radix-prefixed runs take no sign.  A non-conforming
string (a signed radix literal) yields none and the BigInt call
throws. -/
def bigIntOfStr (l : List Char) : Option Int :=
  let (sgn, r0) := spanSign l
  match r0 with
  | '0' :: c2 :: rest =>
    if c2 = 'b' || c2 = 'B' then
      if sgn = [] && rest ≠ [] && rest.all isBinC then some (digitsVal 2 rest) else none
    else if c2 = 'o' || c2 = 'O' then
      if sgn = [] && rest ≠ [] && rest.all isOctC then some (digitsVal 8 rest) else none
    else if c2 = 'x' || c2 = 'X' then
      if sgn = [] && rest ≠ [] && rest.all isHexC then some (digitsVal 16 rest) else none
    else if (c2 :: rest).all isDigitC then some (signVal sgn (digitsVal 10 ('0' :: c2 :: rest)))
    else none
  | _ =>
    if r0 ≠ [] && r0.all isDigitC then some (signVal sgn (digitsVal 10 r0)) else none

/-- Numeric value of a slidNum-accepted token (the numeric branch of
parseLeft): BigInt for the n suffix, parseInt in the radix for the
0b / 0o / 0x prefixes, and parseFloat otherwise - exact on plain
decimal integer runs, symbolic (Value.real) on fraction or exponent
forms. -/
def parseNumToken (t : String) : Option Value :=
  let l := t.data
  if l.getLast? = some 'n' || l.getLast? = some 'N' then
    match bigIntOfStr l.dropLast with
    | some v => some (.big v)
    | none => none
  else
    let (sgn, r0) := spanSign l
    match r0 with
    | '0' :: c2 :: rest =>
      if c2 = 'b' || c2 = 'B' then some (.num (signVal sgn (digitsVal 2 rest)))
      else if c2 = 'o' || c2 = 'O' then some (.num (signVal sgn (digitsVal 8 rest)))
      else if c2 = 'x' || c2 = 'X' then some (.num (signVal sgn (digitsVal 16 rest)))
      else if (c2 :: rest).all isDigitC then
        some (.num (signVal sgn (digitsVal 10 ('0' :: c2 :: rest))))
      else some (.real t)
    | _ =>
      if r0 ≠ [] && r0.all isDigitC then some (.num (signVal sgn (digitsVal 10 r0)))
      else some (.real t)

/-- The parseLeft closure: consumes one token; numeric tokens parse
to numbers or bigints, a lone quote throws the unmatched SyntaxError,
a quoted token is stripped and unescaped, and every other token is
returned as a string.  An empty token list reproduces the crash of
shifting from it. -/
def parseLeftT : List String → Except PErr (Value × List String)
  | [] => .error .crash
  | t :: rest =>
    if slidNumTest t then
      match parseNumToken t with
      | some v => .ok (v, rest)
      | none => .error .crash
    else if t = String.mk [sqChar] || t = String.mk [dqChar] then .error .unterminated
    else
      match t.data with
      | c :: cs =>
        if c = sqChar || c = dqChar then
          .ok (.str (String.mk (unescapeJS (c :: cs).dropLast.tail)), rest)
        else .ok (.str t, rest)
      | [] => .ok (.str t, rest)

/-- Anchored isIndex test on a string form. -/
def isIndexStr : List Char → Bool
  | [] => false
  | c :: rest => (c = '0' && decide (rest = [])) ||
      (49 ≤ c.toNat && c.toNat ≤ 57 && rest.all isDigitC)

/-- Anchored isNegIndex test on a string form. -/
def isNegIndexStr : List Char → Bool
  | '-' :: c :: rest => 49 ≤ c.toNat && c.toNat ≤ 57 && rest.all isDigitC
  | _ => false

/-- The key argument a parsed left value denotes when passed to set:
set stringifies the key, so numbers and bigints become their decimal
form (an index or negative index), and strings are classified by the
isIndex / isNegIndex tests.  Symbolic floats stay symbolic under the
string coercion; the remaining cases cannot be produced by
parseLeft. -/
def keyArgOfValue : Value → KeyArg
  | .num n => if 0 ≤ n then .idx n.toNat else .neg (-n).toNat
  | .big n => if 0 ≤ n then .idx n.toNat else .neg (-n).toNat
  | .str s =>
    if isIndexStr s.data then .idx (digitsVal 10 s.data)
    else if isNegIndexStr s.data then .neg (digitsVal 10 s.data.tail)
    else .name s
  | .real s => .name s
  | .bool true => .name "true"
  | .bool false => .name "false"
  | .nul => .name "null"
  | .undef => .name "undefined"
  | .list _ => .name ""

/-- Increment of the next high-water mark (++result.next: the next
setter on the fresh, unlocked parse container raises the mark by
one; no slots are truncated since the value grows). -/
def bumpNext (c : NANOS) : NANOS := c.withNext (c.next + 1)

mutual
/-- The parseRight closure: a bracket opens a nested container, the
special at-tokens map to the scalar constants, and everything else
is delegated to parseLeft.  The fuel of the embedding is split off
at top level; a fuel unit is spent only on an open bracket. -/
def parseRightF : Nat → List String → Except PErr (Value × List String)
  | 0, ts =>
    match ts with
    | "[" :: _ => .error .fuel
    | "@f" :: rest => .ok (.bool false, rest)
    | "@n" :: rest => .ok (.nul, rest)
    | "@t" :: rest => .ok (.bool true, rest)
    | "@u" :: rest => .ok (.undef, rest)
    | _ => parseLeftT ts
  | f + 1, ts =>
    match ts with
    | "[" :: rest =>
      (match parseItemsF f NANOS.empty rest with
       | .ok (c, rest2) => .ok (.list c, rest2)
       | .error e => .error e)
    | "@f" :: rest => .ok (.bool false, rest)
    | "@n" :: rest => .ok (.nul, rest)
    | "@t" :: rest => .ok (.bool true, rest)
    | "@u" :: rest => .ok (.undef, rest)
    | _ => parseLeftT ts

/-- The parseItems closure: items until a closing bracket or token
exhaustion; a second token = makes a named item (parseLeft key, then
the equals sign is shifted), a bare at-e advances the next mark, and
every other item is positional.  The closing bracket, when present,
is consumed.  A fuel unit is spent per loop iteration. -/
def parseItemsF : Nat → NANOS → List String → Except PErr (NANOS × List String)
  | _, acc, [] => .ok (acc, [])
  | 0, acc, t :: rest => if t = "]" then .ok (acc, rest) else .error .fuel
  | f + 1, acc, t :: rest =>
    if t = "]" then .ok (acc, rest)
    else if rest.head? = some "=" then
      match parseLeftT (t :: rest) with
      | .error e => .error e
      | .ok (kv, _) =>
        match parseRightF f rest.tail with
        | .error e => .error e
        | .ok (v, rest2) =>
          match acc.set (some (keyArgOfValue kv)) v false with
          | .ok (_, acc2) => parseItemsF f acc2 rest2
          | .error _ => .error .crash
    else if t = "@e" then parseItemsF f (bumpNext acc) rest
    else
      match parseRightF f (t :: rest) with
      | .error e => .error e
      | .ok (v, rest2) =>
        match acc.set none v false with
        | .ok (_, acc2) => parseItemsF f acc2 rest2
        | .error _ => .error .crash
end

/-- The parseSLID entry point (qj off): the lazy boundary match takes
the text between the first open marker and the first close marker
after it, unescapes the protected close markers, tokenizes and
filters, parses the items, and reports a malformed SLID when tokens
remain. -/
def parseSLID (s : String) : Except PErr NANOS :=
  match splitFirst ['[', '('] s.data with
  | none => .error .boundary
  | some (_, rest) =>
    match splitFirst [')', ']'] rest with
    | none => .error .boundary
    | some (inner, _) =>
      let toks := tokenize (unescapeBoundary inner)
      match parseItemsF (2 * toks.length + 1) NANOS.empty toks with
      | .error e => .error e
      | .ok (c, leftover) => if leftover = [] then .ok c else .error .malformed

end Nanos

namespace Nanos

/-- C2: the round-trip claim fails on the container holding "a" and
"b" with the next mark advanced to 3 (two values, one trailing
hole): toSLID emits no record of the mark, the parse of the output
reproduces the entries but a next of 2, and the snapshot (next with
the flat pair sequence) differs from the original in its next
component.  The repository test suite expects the serialized form
"[(a b @e)]" for this container and round-trip equality of the
toJSON snapshots, neither of which the code delivers. -/
theorem slid_roundtrip_loses_next :
    (NANOS.mk 3 [(.idx 0, .str "a"), (.idx 1, .str "b")]
        false false false []).toSLID = "[(a b)]" ∧
    parseSLID ((NANOS.mk 3 [(.idx 0, .str "a"), (.idx 1, .str "b")]
        false false false []).toSLID) =
      .ok (NANOS.mk 2 [(.idx 0, .str "a"), (.idx 1, .str "b")]
        false false false []) ∧
    (NANOS.mk 2 [(.idx 0, .str "a"), (.idx 1, .str "b")]
        false false false []).next ≠
      (NANOS.mk 3 [(.idx 0, .str "a"), (.idx 1, .str "b")]
        false false false []).next := by
  have h : (NANOS.mk 3 [(.idx 0, .str "a"), (.idx 1, .str "b")]
      false false false []).toSLID = "[(a b)]" := by
    simp only [NANOS.toSLID, itemsToStr, NANOS.entries, itemsGo, valueToStr]
    rfl
  refine ⟨h, ?_, by decide⟩
  rw [h]
  rfl

/-- C4: toSLID emits no empty-slot tokens at all: the container with
"a" and "b" and three trailing holes (next 5) serializes to exactly
the same text as the container with no holes (next 2), namely
"[(a b)]"; the claimed one-at-e-token-per-missing-slot output (and
the "[(a b 4=@e)]" form the repository tests expect for this
container) never appears, because itemsToStr never consults the next
mark and has no empty-slot branch. -/
theorem toSLID_drops_trailing_holes :
    (NANOS.mk 5 [(.idx 0, .str "a"), (.idx 1, .str "b")]
        false false false []).toSLID = "[(a b)]" ∧
    (NANOS.mk 5 [(.idx 0, .str "a"), (.idx 1, .str "b")]
        false false false []).toSLID =
      (NANOS.mk 2 [(.idx 0, .str "a"), (.idx 1, .str "b")]
        false false false []).toSLID := by
  constructor <;>
    (simp only [NANOS.toSLID, itemsToStr, NANOS.entries, itemsGo, valueToStr]
     try rfl)

end Nanos

namespace Nanos

/-- A successful splitFirst is a decomposition around the pattern. -/
theorem splitFirst_eq {pat : List Char} :
    ∀ {s p r : List Char}, splitFirst pat s = some (p, r) → s = p ++ pat ++ r := by
  intro s
  induction s with
  | nil => intro p r h; simp [splitFirst] at h
  | cons c rest ih =>
    intro p r h
    rw [splitFirst] at h
    by_cases hp : List.isPrefixOf pat (c :: rest)
    · rw [if_pos hp] at h
      obtain ⟨t, ht⟩ := (List.isPrefixOf_iff_prefix.mp hp)
      injection h with h1
      injection h1 with hp1 hr1
      subst hp1
      rw [← ht] at hr1 ⊢
      rw [List.drop_left] at hr1
      rw [← hr1]
      simp
    · rw [if_neg hp] at h
      cases hrec : splitFirst pat rest with
      | none => rw [hrec] at h; exact absurd h (by simp)
      | some pr =>
        obtain ⟨pre, post⟩ := pr
        rw [hrec] at h
        injection h with h1
        injection h1 with hp1 hr1
        subst hp1 hr1
        have := ih hrec
        simp [this]

/-- A failed splitFirst means the pattern occurs nowhere. -/
theorem splitFirst_none {pat : List Char} (hpat : pat ≠ []) :
    ∀ {s : List Char}, splitFirst pat s = none →
      ∀ a b : List Char, s ≠ a ++ pat ++ b := by
  intro s
  induction s with
  | nil =>
    intro _ a b hab
    cases a with
    | nil =>
      have h2 := hab.symm
      simp only [List.nil_append, List.append_eq_nil] at h2
      exact hpat h2.1
    | cons a0 a1 => simp at hab
  | cons c rest ih =>
    intro h a b hab
    rw [splitFirst] at h
    by_cases hp : List.isPrefixOf pat (c :: rest)
    · rw [if_pos hp] at h; exact absurd h (by simp)
    · rw [if_neg hp] at h
      cases a with
      | nil =>
        exact hp (List.isPrefixOf_iff_prefix.mpr ⟨b, by simpa using hab.symm⟩)
      | cons a0 a1 =>
        cases hrec : splitFirst pat rest with
        | none =>
          have := List.cons.injEq .. ▸ hab
          simp only [List.cons_append, List.cons.injEq] at hab
          exact ih hrec a1 b hab.2
        | some pr =>
          obtain ⟨pre, post⟩ := pr
          rw [hrec] at h
          exact absurd h (by simp)

/-- splitFirst finds the first occurrence: its position is at most
that of any occurrence. -/
theorem splitFirst_min {pat : List Char} :
    ∀ {s p r : List Char}, splitFirst pat s = some (p, r) →
      ∀ a b : List Char, s = a ++ pat ++ b → p.length ≤ a.length := by
  intro s
  induction s with
  | nil => intro p r h; simp [splitFirst] at h
  | cons c rest ih =>
    intro p r h a b hab
    rw [splitFirst] at h
    by_cases hp : List.isPrefixOf pat (c :: rest)
    · rw [if_pos hp] at h
      injection h with h1
      injection h1 with hp1 _
      subst hp1
      simp
    · rw [if_neg hp] at h
      cases a with
      | nil =>
        exact absurd (List.isPrefixOf_iff_prefix.mpr ⟨b, by simpa using hab.symm⟩) hp
      | cons a0 a1 =>
        simp only [List.cons_append, List.cons.injEq] at hab
        cases hrec : splitFirst pat rest with
        | none => rw [hrec] at h; exact absurd h (by simp)
        | some pr =>
          obtain ⟨pre, post⟩ := pr
          rw [hrec] at h
          injection h with h1
          injection h1 with hp1 _
          subst hp1
          have := ih hrec a1 b hab.2
          simpa using this

end Nanos

namespace Nanos

/-- parseLeft fails only with the crash of an exhausted token list or
a bad bigint, or with the unmatched-quote error. -/
theorem parseLeftT_error :
    ∀ (ts : List String) (e : PErr), parseLeftT ts = .error e →
      e = .crash ∨ e = .unterminated := by
  intro ts e h
  cases ts with
  | nil =>
    simp only [parseLeftT] at h
    injection h with h1
    exact Or.inl h1.symm
  | cons t rest =>
    simp only [parseLeftT] at h
    split at h
    · split at h
      · exact absurd h (by simp)
      · injection h with h1; exact Or.inl h1.symm
    · split at h
      · injection h with h1; exact Or.inr h1.symm
      · split at h
        · split at h <;> exact absurd h (by simp)
        · exact absurd h (by simp)

/-- parseLeft consumes exactly one token on success. -/
theorem parseLeftT_ok :
    ∀ (ts : List String) (v : Value) (r : List String),
      parseLeftT ts = .ok (v, r) → ∃ t, ts = t :: r := by
  intro ts v r h
  cases ts with
  | nil => simp only [parseLeftT] at h; exact absurd h (by simp)
  | cons t rest =>
    refine ⟨t, ?_⟩
    simp only [parseLeftT] at h
    split at h
    · split at h
      · injection h with h1
        injection h1 with _ h2
        rw [h2]
      · exact absurd h (by simp)
    · split at h
      · exact absurd h (by simp)
      · split at h
        · split at h <;>
            (injection h with h1
             injection h1 with _ h2
             rw [h2])
        · injection h with h1
          injection h1 with _ h2
          rw [h2]

end Nanos


namespace Nanos

/-- Parser resource and error discipline, by induction on fuel: the
parse closures never report the boundary error (it arises only from
the delimiter scan); with fuel at least twice the token count the
embedding fuel is never exhausted, since every fuel unit spent
consumes a token; and success consumes at least one token (strictly,
for a value). -/
theorem parse_spec :
    ∀ fuel : Nat,
      (∀ ts : List String,
        (∀ e, parseRightF fuel ts = .error e → e ≠ PErr.boundary) ∧
        (2 * ts.length ≤ fuel → parseRightF fuel ts ≠ .error PErr.fuel) ∧
        (∀ v r, parseRightF fuel ts = .ok (v, r) → r.length < ts.length)) ∧
      (∀ (acc : NANOS) (ts : List String),
        (∀ e, parseItemsF fuel acc ts = .error e → e ≠ PErr.boundary) ∧
        (2 * ts.length < fuel → parseItemsF fuel acc ts ≠ .error PErr.fuel) ∧
        (∀ c lo, parseItemsF fuel acc ts = .ok (c, lo) → lo.length ≤ ts.length)) := by
  intro fuel
  induction fuel with
  | zero =>
    constructor
    · intro ts
      refine ⟨?_, ?_, ?_⟩
      · intro e h
        simp only [parseRightF] at h
        split at h
        · injection h with h1; subst h1; simp
        · exact absurd h (by simp)
        · exact absurd h (by simp)
        · exact absurd h (by simp)
        · exact absurd h (by simp)
        · rcases parseLeftT_error _ _ h with h1 | h1 <;> (subst h1; simp)
      · intro hb h
        have hts : ts = [] := by
          cases ts with
          | nil => rfl
          | cons t rest => simp at hb
        subst hts
        simp only [parseRightF, parseLeftT] at h
        exact absurd h (by simp)
      · intro v r h
        simp only [parseRightF] at h
        split at h
        · exact absurd h (by simp)
        · injection h with h1; injection h1 with _ h2; subst h2; simp
        · injection h with h1; injection h1 with _ h2; subst h2; simp
        · injection h with h1; injection h1 with _ h2; subst h2; simp
        · injection h with h1; injection h1 with _ h2; subst h2; simp
        · obtain ⟨t, ht⟩ := parseLeftT_ok _ _ _ h
          subst ht
          simp
    · intro acc ts
      refine ⟨?_, ?_, ?_⟩
      · intro e h
        cases ts with
        | nil =>
          simp only [parseItemsF] at h
          exact absurd h (by simp)
        | cons t rest =>
          simp only [parseItemsF] at h
          split at h
          · exact absurd h (by simp)
          · injection h with h1; subst h1; simp
      · intro hb _
        omega
      · intro c lo h
        cases ts with
        | nil =>
          simp only [parseItemsF] at h
          injection h with h1; injection h1 with _ h2; subst h2; simp
        | cons t rest =>
          simp only [parseItemsF] at h
          split at h
          · injection h with h1; injection h1 with _ h2; subst h2; simp
          · exact absurd h (by simp)
  | succ f ih =>
    constructor
    · intro ts
      refine ⟨?_, ?_, ?_⟩
      · intro e h
        simp only [parseRightF] at h
        split at h
        · split at h
          · exact absurd h (by simp)
          · injection h with h1
            subst h1
            intro hb
            subst hb
            exact (ih.2 _ _).1 _ (by assumption) rfl
        · exact absurd h (by simp)
        · exact absurd h (by simp)
        · exact absurd h (by simp)
        · exact absurd h (by simp)
        · rcases parseLeftT_error _ _ h with h1 | h1 <;> (subst h1; simp)
      · intro hb h
        simp only [parseRightF] at h
        split at h
        · rename_i rest
          split at h
          · exact absurd h (by simp)
          · injection h with h1
            subst h1
            refine (ih.2 NANOS.empty rest).2.1 ?_ (by assumption)
            simp only [List.length_cons] at hb
            omega
        · exact absurd h (by simp)
        · exact absurd h (by simp)
        · exact absurd h (by simp)
        · exact absurd h (by simp)
        · rcases parseLeftT_error _ _ h with h1 | h1 <;> simp at h1
      · intro v r h
        simp only [parseRightF] at h
        split at h
        · rename_i rest
          split at h
          · rename_i c rest2 heq
            injection h with h1
            injection h1 with _ h2
            subst h2
            have := (ih.2 NANOS.empty rest).2.2 _ _ heq
            simp only [List.length_cons]
            omega
          · exact absurd h (by simp)
        · injection h with h1; injection h1 with _ h2; subst h2; simp
        · injection h with h1; injection h1 with _ h2; subst h2; simp
        · injection h with h1; injection h1 with _ h2; subst h2; simp
        · injection h with h1; injection h1 with _ h2; subst h2; simp
        · obtain ⟨t, ht⟩ := parseLeftT_ok _ _ _ h
          subst ht
          simp
    · intro acc ts
      refine ⟨?_, ?_, ?_⟩
      · intro e h
        cases ts with
        | nil =>
          simp only [parseItemsF] at h
          exact absurd h (by simp)
        | cons t rest =>
          simp only [parseItemsF] at h
          split at h
          · exact absurd h (by simp)
          · split at h
            · split at h
              · injection h with h1
                subst h1
                rcases parseLeftT_error _ _ (by assumption) with h1 | h1 <;> (subst h1; simp)
              · split at h
                · injection h with h1
                  subst h1
                  intro hb
                  subst hb
                  exact (ih.1 _).1 _ (by assumption) rfl
                · split at h
                  · exact (ih.2 _ _).1 _ h
                  · injection h with h1; subst h1; simp
            · split at h
              · exact (ih.2 _ _).1 _ h
              · split at h
                · injection h with h1
                  subst h1
                  intro hb
                  subst hb
                  exact (ih.1 _).1 _ (by assumption) rfl
                · split at h
                  · exact (ih.2 _ _).1 _ h
                  · injection h with h1; subst h1; simp
      · intro hb h
        cases ts with
        | nil =>
          simp only [parseItemsF] at h
          exact absurd h (by simp)
        | cons t rest =>
          simp only [parseItemsF] at h
          simp only [List.length_cons] at hb
          split at h
          · exact absurd h (by simp)
          · split at h
            · rename_i hhead
              have htl : rest.length = rest.tail.length + 1 := by
                cases rest with
                | nil => simp at hhead
                | cons a b => simp
              split at h
              · injection h with h1
                subst h1
                rcases parseLeftT_error _ _ (by assumption) with h1 | h1 <;> simp at h1
              · split at h
                · injection h with h1
                  subst h1
                  refine (ih.1 rest.tail).2.1 ?_ (by assumption)
                  omega
                · rename_i v rest2 hr2
                  have hc2 := (ih.1 rest.tail).2.2 _ _ hr2
                  split at h
                  · refine (ih.2 _ _).2.1 ?_ h
                    omega
                  · exact absurd h (by simp)
            · split at h
              · refine (ih.2 _ _).2.1 ?_ h
                omega
              · split at h
                · injection h with h1
                  subst h1
                  refine (ih.1 (t :: rest)).2.1 ?_ (by assumption)
                  simp only [List.length_cons]
                  omega
                · rename_i v rest2 hr2
                  have hc2 := (ih.1 (t :: rest)).2.2 _ _ hr2
                  simp only [List.length_cons] at hc2
                  split at h
                  · refine (ih.2 _ _).2.1 ?_ h
                    omega
                  · exact absurd h (by simp)
      · intro c lo h
        cases ts with
        | nil =>
          simp only [parseItemsF] at h
          injection h with h1; injection h1 with _ h2; subst h2; simp
        | cons t rest =>
          simp only [parseItemsF] at h
          split at h
          · injection h with h1; injection h1 with _ h2; subst h2; simp
          · split at h
            · rename_i hhead
              have htl : rest.length = rest.tail.length + 1 := by
                cases rest with
                | nil => simp at hhead
                | cons a b => simp
              split at h
              · exact absurd h (by simp)
              · split at h
                · exact absurd h (by simp)
                · rename_i v rest2 hr2
                  have hc2 := (ih.1 rest.tail).2.2 _ _ hr2
                  split at h
                  · have := (ih.2 _ _).2.2 _ _ h
                    simp only [List.length_cons]
                    omega
                  · exact absurd h (by simp)
            · split at h
              · have := (ih.2 _ _).2.2 _ _ h
                simp only [List.length_cons] at *
                omega
              · split at h
                · exact absurd h (by simp)
                · rename_i v rest2 hr2
                  have hc2 := (ih.1 (t :: rest)).2.2 _ _ hr2
                  simp only [List.length_cons] at hc2
                  split at h
                  · have := (ih.2 _ _).2.2 _ _ h
                    simp only [List.length_cons]
                    omega
                  · exact absurd h (by simp)
end Nanos

namespace Nanos

/-- C8: the parser error contract.  (1) parseSLID reports the
boundary error exactly when the input admits no decomposition with
an open marker followed later by a close marker - so every input with
the delimiters present in order gets past the boundary stage, and
every input without them fails there.  (2) Unconsumed tokens after
the outer container give the malformed error (concrete instance with
a stray close bracket).  (3) A lone quote token where a value is
expected makes parseLeft report the unmatched-quote error, whatever
tokens follow, and a full parse of an input whose interior is a
single quote character fails with exactly that error.  (4) Failures
are total and genuine: the fuel of the embedding is never the
reported error, so every parseSLID call either produces a container
or one of the error outcomes of the source. -/
theorem parseSLID_failure_modes :
    (∀ s : String, parseSLID s = .error .boundary ↔
        ¬ ∃ a b c2 : List Char,
          s.data = a ++ ['[', '('] ++ b ++ [')', ']'] ++ c2) ∧
    parseSLID "[(a]b)]" = .error .malformed ∧
    (∀ rest : List String,
        parseLeftT (String.mk [sqChar] :: rest) = .error .unterminated ∧
        parseLeftT (String.mk [dqChar] :: rest) = .error .unterminated) ∧
    parseSLID (String.mk ['[', '(', sqChar, ')', ']']) = .error .unterminated ∧
    (∀ s : String, parseSLID s ≠ .error .fuel) := by
  refine ⟨?_, rfl, fun rest => ⟨rfl, rfl⟩, rfl, ?_⟩
  · intro s
    constructor
    · intro h hex
      obtain ⟨a, b, c2, hdec⟩ := hex
      unfold parseSLID at h
      cases h1 : splitFirst ['[', '('] s.data with
      | none =>
        exact splitFirst_none (by simp) h1 a (b ++ [')', ']'] ++ c2)
          (by simpa [List.append_assoc] using hdec)
      | some pr =>
        obtain ⟨p, r⟩ := pr
        rw [h1] at h
        dsimp only at h
        cases h2 : splitFirst [')', ']'] r with
        | none =>
          have hmin := splitFirst_min h1 a (b ++ [')', ']'] ++ c2)
            (by simpa [List.append_assoc] using hdec)
          have heq := splitFirst_eq h1
          have hr : r = (a ++ ['[', '('] ++ b).drop (p.length + 2) ++
              ([')', ']'] ++ c2) := by
            have hs2 : s.data = (a ++ ['[', '('] ++ b) ++ ([')', ']'] ++ c2) := by
              rw [hdec]; simp [List.append_assoc]
            have hr0 : r = s.data.drop (p.length + 2) := by
              rw [heq]
              have hl : (p ++ ['[', '(']).length = p.length + 2 := by simp
              rw [← hl]
              exact (List.drop_left _ _).symm
            rw [hr0, hs2, List.drop_append_eq_append_drop]
            have hle : p.length + 2 - (a ++ ['[', '('] ++ b).length = 0 := by
              simp only [List.length_append, List.length_cons, List.length_nil]
              omega
            rw [hle]
            simp
          exact splitFirst_none (by simp) h2
            ((a ++ ['[', '('] ++ b).drop (p.length + 2)) c2
            (by rw [hr, ← List.append_assoc])
        | some pr2 =>
          obtain ⟨inner, post⟩ := pr2
          rw [h2] at h
          dsimp only at h
          cases h3 : parseItemsF
              (2 * (tokenize (unescapeBoundary inner)).length + 1) NANOS.empty
              (tokenize (unescapeBoundary inner)) with
          | error e =>
            rw [h3] at h
            dsimp only at h
            injection h with h4
            exact ((parse_spec _).2 NANOS.empty _).1 _ h3 h4
          | ok pr3 =>
            obtain ⟨c, leftover⟩ := pr3
            rw [h3] at h
            dsimp only at h
            by_cases hlo : leftover = []
            · rw [if_pos hlo] at h
              exact absurd h (by simp)
            · rw [if_neg hlo] at h
              injection h with h4
              exact absurd h4 (by simp)
    · intro hnex
      unfold parseSLID
      cases h1 : splitFirst ['[', '('] s.data with
      | none => rfl
      | some pr =>
        obtain ⟨p, r⟩ := pr
        dsimp only
        cases h2 : splitFirst [')', ']'] r with
        | none => rfl
        | some pr2 =>
          obtain ⟨inner, post⟩ := pr2
          exfalso
          refine hnex ⟨p, inner, post, ?_⟩
          rw [splitFirst_eq h1, splitFirst_eq h2]
          simp [List.append_assoc]
  · intro s h
    unfold parseSLID at h
    cases h1 : splitFirst ['[', '('] s.data with
    | none => rw [h1] at h; exact absurd h (by simp)
    | some pr =>
      obtain ⟨p, r⟩ := pr
      rw [h1] at h
      dsimp only at h
      cases h2 : splitFirst [')', ']'] r with
      | none => rw [h2] at h; exact absurd h (by simp)
      | some pr2 =>
        obtain ⟨inner, post⟩ := pr2
        rw [h2] at h
        dsimp only at h
        cases h3 : parseItemsF
            (2 * (tokenize (unescapeBoundary inner)).length + 1) NANOS.empty
            (tokenize (unescapeBoundary inner)) with
        | error e =>
          rw [h3] at h
          dsimp only at h
          injection h with h4
          rw [h4] at h3
          exact ((parse_spec _).2 NANOS.empty _).2.1 (by omega) h3
        | ok pr3 =>
          obtain ⟨c, leftover⟩ := pr3
          rw [h3] at h
          dsimp only at h
          by_cases hlo : leftover = []
          · rw [if_pos hlo] at h
            exact absurd h (by simp)
          · rw [if_neg hlo] at h
            exact absurd h (by simp)

/-- Witness: the failure modes applied at concrete inputs. -/
theorem parseSLID_failure_modes_witness :
    parseSLID "no markers" = .error .boundary ∧
    parseSLID "[(a]b)]" = .error .malformed ∧
    parseLeftT [String.mk [sqChar]] = .error .unterminated ∧
    parseSLID "[(x)]" ≠ .error .fuel :=
  ⟨(parseSLID_failure_modes.1 "no markers").mpr
      (by
        intro hex
        obtain ⟨a, b, c2, h⟩ := hex
        have h2 : ('[' : Char) ∈ "no markers".data := by rw [h]; simp
        exact absurd h2 (by decide)),
   parseSLID_failure_modes.2.1,
   (parseSLID_failure_modes.2.2.1 []).1,
   parseSLID_failure_modes.2.2.2.2 "[(x)]"⟩

end Nanos
